import Mathlib

/-!
# Cluster-role search (pkg/models/resources/clusterroles.go)

A shallow embedding of the cluster-role searcher: the exact-match evaluator,
the fuzzy evaluator, the comparator and the search orchestrator, followed by
the properties of the specification that were checked against them.

Conventions of the embedding.

* A Go map[string]string is a list of key/value pairs.  The order of the list
  is the order in which one particular range loop visits the entries; a
  well-formed map has pairwise distinct keys.  Indexing a map with an absent
  key yields the empty string, as in Go.
* Go strings are byte strings.  For valid UTF-8 the byte-wise substring test
  and the byte-wise lexicographic order agree with the same notions on code
  points, so a string is a Lean String and both are computed on its
  characters.
* A creation timestamp is an instant on the integer time line.
* The informer lister is the value it returns: either an error or the list of
  cluster roles.
* sort.Slice belongs to the Go library, not to the repository.  It is a
  parameter of search, constrained by the contract SortSliceContract.
-/

namespace Resources

/-! ## Data model -/

/-- Owner reference of an object: kind and name of the owner and whether the
owner is the managing controller. -/
structure OwnerReference where
  Kind : String
  Name : String
  Controller : Bool
deriving DecidableEq, Repr

/-- The fields of rbac.ClusterRole that the searcher reads. -/
structure ClusterRole where
  Name : String
  CreationTimestamp : Int
  Labels : List (String × String)
  Annotations : List (String × String)
  OwnerReferences : List OwnerReference
deriving DecidableEq, Repr

/-- The two predicate maps of params.Conditions. -/
structure Conditions where
  Match : List (String × String)
  Fuzzy : List (String × String)
deriving DecidableEq, Repr

/-- The annotation and label keys of package constants.  Their values are not
part of the source file; they are carried as a parameter. -/
structure Constants where
  DisplayNameAnnotationKey : String
  CreatorLabelAnnotationKey : String
  WorkspaceLabelKey : String
deriving DecidableEq, Repr

/-! ## Reserved keys -/

/-- Modelled from the spec: the package constant ownerKind is declared outside
the source file; the spec lists the reserved key owner_kind. -/
def ownerKind : String := "owner_kind"

/-- Modelled from the spec: the package constant ownerName is declared outside
the source file; the spec lists the reserved key owner_name. -/
def ownerName : String := "owner_name"

/-- Modelled from the spec: the package constant Name is declared outside the
source file; the spec lists the reserved key name. -/
def Name : String := "name"

/-- Modelled from the spec: the package constant Keyword is declared outside
the source file; the spec lists the reserved key keyword. -/
def Keyword : String := "keyword"

/-- Modelled from the spec: the package constant label is declared outside the
source file; the spec lists the reserved fuzzy key label. -/
def label : String := "label"

/-- Modelled from the spec: the package constant for the reserved fuzzy key
annotation is declared outside the source file. -/
def annotation : String := "annotation"

/-- Modelled from the spec: the package constant CreateTime is declared outside
the source file; the spec lists the order_by value create_time. -/
def CreateTime : String := "create_time"

/-! ## Go primitives -/

deriving instance DecidableEq for Except

/-- Go map indexing m[k]: the value stored under k, the empty string when k is
absent. -/
def mapIndex (m : List (String × String)) (k : String) : String :=
  (m.lookup k).getD ""

/-- Go strings.Contains: substr occurs in s as a contiguous block. -/
def Contains (s substr : String) : Bool :=
  decide (substr.data <:+: s.data)

/-- Go strings.Split with the one-character separator sep. -/
def Split (s : String) (sep : Char) : List String :=
  (s.data.splitOn sep).map String.mk

/-- Three-way lexicographic comparison of two character sequences by code
point. -/
def compareChars : List Char → List Char → Int
  | [], [] => 0
  | [], _ :: _ => -1
  | _ :: _, [] => 1
  | x :: xs, y :: ys =>
    if x.toNat < y.toNat then -1
    else if y.toNat < x.toNat then 1
    else compareChars xs ys

/-- Go strings.Compare: -1, 0 or 1 as a sorts before, equal to or after b. -/
def stringsCompare (a b : String) : Int :=
  compareChars a.data b.data

/-! ## Helpers of the repository that live outside the source file -/

/-- Modelled from the spec: k8sutil.IsControlledBy is not part of the source
file.  The owner references must contain an entry marked as controller whose
kind equals the requested kind and whose name equals the requested name; a
missing component, which the caller passes as the empty string, stands for
any. -/
def IsControlledBy (reference : List OwnerReference) (kind name : String) : Bool :=
  reference.any fun ref =>
    ref.Controller && (kind == "" || ref.Kind == kind) && (name == "" || ref.Name == name)

/-- Modelled from the spec: sliceutil.HasString is not part of the source file.
The string is a member of the slice. -/
def HasString (slice : List String) (str : String) : Bool :=
  slice.any fun s => s == str

/-- Modelled from the spec: searchFuzzy is declared in another file of the
package.  With an empty key filter it holds iff any key or any value contains
the needle; otherwise iff the map has an entry under the key filter whose
value contains the needle. -/
def searchFuzzy (m : List (String × String)) (key value : String) : Bool :=
  if key = "" then
    m.any fun kv => Contains kv.1 value || Contains kv.2 value
  else
    match m.lookup key with
    | some val => Contains val value
    | none => false

/-! ## The searcher -/

/-- Source isUserFacingClusterRole: the creator annotation is non-empty and the
workspace label is empty. -/
def isUserFacingClusterRole (c : Constants) (role : ClusterRole) : Bool :=
  if mapIndex role.Annotations c.CreatorLabelAnnotationKey ≠ "" ∧
      mapIndex role.Labels c.WorkspaceLabelKey = "" then
    true
  else
    false

/-- The range loop of clusterRoleSearcher.match over the entries still to be
visited; m is the whole map, which the owner branch indexes. -/
def clusterRoleSearcher.matchLoop (c : Constants) (m : List (String × String))
    (item : ClusterRole) : List (String × String) → Bool
  | [] => true
  | (k, v) :: rest =>
    if k = ownerKind ∨ k = ownerName then
      let kind := mapIndex m ownerKind
      let name := mapIndex m ownerName
      if !IsControlledBy item.OwnerReferences kind name then false
      else clusterRoleSearcher.matchLoop c m item rest
    else if k = Name then
      let names := Split v '|'
      if !HasString names item.Name then false
      else clusterRoleSearcher.matchLoop c m item rest
    else if k = Keyword then
      if !Contains item.Name v && !searchFuzzy item.Labels "" v &&
          !searchFuzzy item.Annotations "" v then false
      else clusterRoleSearcher.matchLoop c m item rest
    else if k = "userfacing" then
      if v = "true" then
        if !isUserFacingClusterRole c item then false
        else clusterRoleSearcher.matchLoop c m item rest
      else clusterRoleSearcher.matchLoop c m item rest
    else
      if mapIndex item.Labels k ≠ v then false
      else clusterRoleSearcher.matchLoop c m item rest

/-- Source clusterRoleSearcher.match: the exact-match evaluator. -/
def clusterRoleSearcher.match (c : Constants) (m : List (String × String))
    (item : ClusterRole) : Bool :=
  clusterRoleSearcher.matchLoop c m item m

/-- Source clusterRoleSearcher.fuzzy: the fuzzy evaluator, a range loop over
the entries of the map. -/
def clusterRoleSearcher.fuzzy (c : Constants) :
    List (String × String) → ClusterRole → Bool
  | [], _ => true
  | (k, v) :: rest, item =>
    if k = Name then
      if !Contains item.Name v &&
          !Contains (mapIndex item.Annotations c.DisplayNameAnnotationKey) v then false
      else clusterRoleSearcher.fuzzy c rest item
    else if k = label then
      if !searchFuzzy item.Labels "" v then false
      else clusterRoleSearcher.fuzzy c rest item
    else if k = annotation then
      if !searchFuzzy item.Annotations "" v then false
      else false
    else
      if !searchFuzzy item.Labels k v && !searchFuzzy item.Annotations k v then false
      else clusterRoleSearcher.fuzzy c rest item

/-- Source clusterRoleSearcher.compare. -/
def clusterRoleSearcher.compare (a b : ClusterRole) (orderBy : String) : Bool :=
  if orderBy = CreateTime then
    decide (a.CreationTimestamp < b.CreationTimestamp)
  else
    decide (stringsCompare a.Name b.Name ≤ 0)

/-- The less closure that search hands to sort.Slice: the operands are swapped
when reverse is set. -/
def clusterRoleSearcher.less (orderBy : String) (reverse : Bool)
    (x y : ClusterRole) : Bool :=
  if reverse then clusterRoleSearcher.compare y x orderBy
  else clusterRoleSearcher.compare x y orderBy

/-- The roles that search keeps before sorting. -/
def clusterRoleSearcher.retained (c : Constants) (conditions : Conditions)
    (clusterRoles : List ClusterRole) : List ClusterRole :=
  if conditions.Match.length = 0 ∧ conditions.Fuzzy.length = 0 then
    clusterRoles
  else
    clusterRoles.filter fun item =>
      clusterRoleSearcher.match c conditions.Match item &&
        clusterRoleSearcher.fuzzy c conditions.Fuzzy item

/-- Source clusterRoleSearcher.search.  sortSlice stands for sort.Slice and
lister for the result of listing the informer cache. -/
def clusterRoleSearcher.search
    (sortSlice : (ClusterRole → ClusterRole → Bool) → List ClusterRole → List ClusterRole)
    (c : Constants) (lister : Except String (List ClusterRole))
    (conditions : Conditions) (orderBy : String) (reverse : Bool) :
    Except String (List ClusterRole) :=
  match lister with
  | .error err => .error err
  | .ok clusterRoles =>
    .ok (sortSlice (clusterRoleSearcher.less orderBy reverse)
      (clusterRoleSearcher.retained c conditions clusterRoles))

/-- The two values that search returns, as Go has them: the slice and the
error, each of them none when it is nil.  On a lister error the source returns
a nil slice and the error.  Otherwise it returns the slice r, which is made
empty by make and filled by append, so it is never nil, and a nil error. -/
def clusterRoleSearcher.searchValues
    (sortSlice : (ClusterRole → ClusterRole → Bool) → List ClusterRole → List ClusterRole)
    (c : Constants) (lister : Except String (List ClusterRole))
    (conditions : Conditions) (orderBy : String) (reverse : Bool) :
    Option (List ClusterRole) × Option String :=
  match lister with
  | .error err => (none, some err)
  | .ok clusterRoles =>
    let result := sortSlice (clusterRoleSearcher.less orderBy reverse)
      (clusterRoleSearcher.retained c conditions clusterRoles)
    let r := result.foldl (fun r i => r ++ [i]) []
    (some r, none)

/-! ## Ordering keys -/

/-- The two roles have the same ordering key: the same creation time under
create_time, the same name under every other order_by value. -/
def sameKey (orderBy : String) (a b : ClusterRole) : Bool :=
  if orderBy = CreateTime then
    decide (a.CreationTimestamp = b.CreationTimestamp)
  else
    decide (a.Name = b.Name)

/-- The ordering key of a is strictly smaller than that of b: an earlier
creation time under create_time, a name that is smaller in lexicographic order
under every other order_by value. -/
def keyBefore (orderBy : String) (a b : ClusterRole) : Bool :=
  if orderBy = CreateTime then
    decide (a.CreationTimestamp < b.CreationTimestamp)
  else
    decide (stringsCompare a.Name b.Name < 0)

/-! ## The contract of sort.Slice -/

/-- A strict weak ordering, the kind of less function sort.Slice asks for:
nothing sorts before itself, sorting before is transitive, and so is being
tied. -/
structure StrictWeakOrder {α : Type} (lt : α → α → Bool) : Prop where
  irrefl : ∀ a, lt a a = false
  trans : ∀ a b c, lt a b = true → lt b c = true → lt a c = true
  incomp_trans : ∀ a b c, lt a b = false → lt b c = false → lt a c = false

/-- The less function and the ordering lt give the same answers on the two
elements, in both directions. -/
def AgreeAt {α : Type} (less lt : α → α → Bool) (a b : α) : Prop :=
  less a b = lt a b ∧ less b a = lt b a

/-- What the embedding assumes of sort.Slice.  It moves elements by swapping
only, so the outcome is a rearrangement of the input.  When the less function
agrees with a strict weak ordering on every two elements that stand at
different positions, no element of the outcome sorts before an earlier one.
Nothing is promised on the relative order of tied elements: sort.Slice is
documented as not stable. -/
def SortSliceContract
    (sortSlice : (ClusterRole → ClusterRole → Bool) → List ClusterRole → List ClusterRole) :
    Prop :=
  (∀ less l, (sortSlice less l).Perm l) ∧
  ∀ less lt l, StrictWeakOrder lt → l.Pairwise (AgreeAt less lt) →
    (sortSlice less l).Pairwise fun a b => lt b a = false

/-- The inner loop of the insertion sort of package sort: the element x, which
stands right after the sorted part, is swapped with its left neighbour as long
as it is less than that neighbour.  The sorted part is listed from right to
left. -/
def insertionStep {α : Type} (less : α → α → Bool) (x : α) : List α → List α
  | [] => [x]
  | y :: ys => if less x y then y :: insertionStep less x ys else x :: y :: ys

/-- The insertion sort of package sort, which is all sort.Slice runs on a slice
of at most twelve elements from Go 1.19 on. -/
def insertionSort {α : Type} (less : α → α → Bool) (data : List α) : List α :=
  (data.foldl (fun sortedPart x => insertionStep less x sortedPart) []).reverse

/-- Exchange of the elements at positions i and j. -/
def swapAt {α : Type} (data : List α) (i j : Nat) : List α :=
  match data[i]?, data[j]? with
  | some x, some y => (data.set i y).set j x
  | _, _ => data

/-- The shell-sort pass with gap six that package sort runs before the
insertion sort, up to Go 1.18: for every position i from six on, the element
at i is exchanged with the one at i - 6 when it is less. -/
def shellPass {α : Type} (less : α → α → Bool) (data : List α) : List α :=
  (List.range (data.length - 6)).foldl
    (fun d t =>
      match d[t + 6]?, d[t]? with
      | some x, some y => if less x y then swapAt d (t + 6) t else d
      | _, _ => d)
    data

/-- What sort.Slice runs on a slice of at most twelve elements up to Go 1.18:
the gap-six pass followed by the insertion sort. -/
def shellInsertionSort {α : Type} (less : α → α → Bool) (data : List α) : List α :=
  insertionSort less (shellPass less data)

/-! ## The seed snapshot of the specification -/

/-- Values for the three keys of package constants used in the examples. -/
def seedConstants : Constants :=
  { DisplayNameAnnotationKey := "display_name_annotation_key"
    CreatorLabelAnnotationKey := "creator_annotation_key"
    WorkspaceLabelKey := "workspace_label_key" }

/-- Seed role r1. -/
def seedAdmin : ClusterRole :=
  { Name := "admin", CreationTimestamp := 0
    Labels := [("tier", "system")]
    Annotations := [("display_name_annotation_key", "Administrator")]
    OwnerReferences := [] }

/-- Seed role r2. -/
def seedViewer : ClusterRole :=
  { Name := "viewer", CreationTimestamp := 1
    Labels := [("tier", "user"), ("workspace_label_key", "ws-a")]
    Annotations := [("creator_annotation_key", "alice"),
      ("display_name_annotation_key", "Read Only")]
    OwnerReferences := [] }

/-- Seed role r3. -/
def seedEditor : ClusterRole :=
  { Name := "editor", CreationTimestamp := 2
    Labels := [("tier", "user")]
    Annotations := [("creator_annotation_key", "bob"),
      ("display_name_annotation_key", "Editor")]
    OwnerReferences := [] }

/-- Seed role r4. -/
def seedBot : ClusterRole :=
  { Name := "system:bot", CreationTimestamp := 3
    Labels := []
    Annotations := []
    OwnerReferences := [{ Kind := "Role", Name := "admin", Controller := true }] }

/-- The seed snapshot, in insertion order. -/
def seedSnapshot : List ClusterRole :=
  [seedAdmin, seedViewer, seedEditor, seedBot]

/-- A role that carries nothing but a name and a creation time. -/
def bareRole (name : String) (created : Int) : ClusterRole :=
  { Name := name, CreationTimestamp := created, Labels := [], Annotations := [],
    OwnerReferences := [] }

/-- A snapshot of seven roles: the first six share one creation time, the
seventh is older. -/
def tiedSnapshot : List ClusterRole :=
  [bareRole "a" 1, bareRole "b" 1, bareRole "c" 1, bareRole "d" 1, bareRole "e" 1,
    bareRole "f" 1, bareRole "g" 0]

/-! ## Basic facts -/

theorem Contains_iff (s t : String) : Contains s t = true ↔ t.data <:+: s.data := by
  simp [Contains]

/-! ## The two evaluators as conjunctions over the entries -/

theorem mapIndex_of_lookup_none {m : List (String × String)} {k : String}
    (h : m.lookup k = none) : mapIndex m k = "" := by
  simp [mapIndex, h]

theorem mapIndex_of_lookup_some {m : List (String × String)} {k v : String}
    (h : m.lookup k = some v) : mapIndex m k = v := by
  simp [mapIndex, h]

theorem matchLoop_cons (c : Constants) (m : List (String × String)) (item : ClusterRole)
    (e : String × String) (rest : List (String × String)) :
    clusterRoleSearcher.matchLoop c m item (e :: rest) =
      (clusterRoleSearcher.matchLoop c m item [e] &&
        clusterRoleSearcher.matchLoop c m item rest) := by
  obtain ⟨k, v⟩ := e
  simp only [clusterRoleSearcher.matchLoop]
  split_ifs <;> simp

theorem matchLoop_eq_all (c : Constants) (m : List (String × String)) (item : ClusterRole)
    (l : List (String × String)) :
    clusterRoleSearcher.matchLoop c m item l =
      l.all fun e => clusterRoleSearcher.matchLoop c m item [e] := by
  induction l with
  | nil => rfl
  | cons e rest ih => rw [matchLoop_cons, ih, List.all_cons]

theorem fuzzy_cons (c : Constants) (item : ClusterRole)
    (e : String × String) (rest : List (String × String)) :
    clusterRoleSearcher.fuzzy c (e :: rest) item =
      (clusterRoleSearcher.fuzzy c [e] item && clusterRoleSearcher.fuzzy c rest item) := by
  obtain ⟨k, v⟩ := e
  simp only [clusterRoleSearcher.fuzzy]
  split_ifs <;> simp

theorem fuzzy_eq_all (c : Constants) (item : ClusterRole) (l : List (String × String)) :
    clusterRoleSearcher.fuzzy c l item =
      l.all fun e => clusterRoleSearcher.fuzzy c [e] item := by
  induction l with
  | nil => rfl
  | cons e rest ih => rw [fuzzy_cons, ih, List.all_cons]

/-! ## C1: the owner pair -/

theorem matchLoop_owner (c : Constants) (m : List (String × String)) (item : ClusterRole)
    (k v : String) (hk : k = ownerKind ∨ k = ownerName) :
    clusterRoleSearcher.matchLoop c m item [(k, v)] =
      IsControlledBy item.OwnerReferences (mapIndex m ownerKind) (mapIndex m ownerName) := by
  simp [clusterRoleSearcher.matchLoop, hk]

theorem IsControlledBy_iff (refs : List OwnerReference) (kind name : String) :
    IsControlledBy refs kind name = true ↔
      ∃ ref ∈ refs, ref.Controller = true ∧ (kind = "" ∨ ref.Kind = kind) ∧
        (name = "" ∨ ref.Name = name) := by
  simp [IsControlledBy, and_assoc]

theorem lookup_guard_iff (m : List (String × String)) (k x : String) :
    (mapIndex m k = "" ∨ x = mapIndex m k) ↔
      ∀ v, m.lookup k = some v → v ≠ "" → x = v := by
  cases h : m.lookup k with
  | none => simp [mapIndex, h]
  | some w =>
    simp only [mapIndex, h, Option.getD_some, Option.some.injEq]
    constructor
    · rintro (h1 | h1) v rfl hv
      · exact absurd h1 hv
      · exact h1
    · intro h1
      by_cases hw : w = ""
      · exact Or.inl hw
      · exact Or.inr (h1 w rfl hw)

/-- C1 (amended): for a match map whose keys are all owner_kind or owner_name,
at least one of them present, match accepts the role iff its owner references
hold an entry marked as controller whose kind equals the value under owner_kind
when that key is present with a non-empty value and whose name equals the value
under owner_name when that key is present with a non-empty value. -/
theorem match_owner_iff (c : Constants) (r : ClusterRole) (p : List (String × String))
    (hne : p ≠ []) (hkeys : ∀ e ∈ p, e.1 = ownerKind ∨ e.1 = ownerName) :
    clusterRoleSearcher.match c p r = true ↔
      ∃ ref ∈ r.OwnerReferences, ref.Controller = true ∧
        (∀ v, p.lookup ownerKind = some v → v ≠ "" → ref.Kind = v) ∧
        (∀ v, p.lookup ownerName = some v → v ≠ "" → ref.Name = v) := by
  have hall : clusterRoleSearcher.match c p r =
      IsControlledBy r.OwnerReferences (mapIndex p ownerKind) (mapIndex p ownerName) := by
    unfold clusterRoleSearcher.match
    rw [matchLoop_eq_all]
    have : ∀ e ∈ p, clusterRoleSearcher.matchLoop c p r [e] =
        IsControlledBy r.OwnerReferences (mapIndex p ownerKind) (mapIndex p ownerName) := by
      rintro ⟨k, v⟩ he
      exact matchLoop_owner c p r k v (hkeys _ he)
    cases hp : p with
    | nil => exact absurd hp hne
    | cons e rest =>
      subst hp
      cases hb : IsControlledBy r.OwnerReferences (mapIndex (e :: rest) ownerKind)
          (mapIndex (e :: rest) ownerName) with
      | false =>
        rw [List.all_eq_false]
        exact ⟨e, List.mem_cons_self _ _, by rw [this e (List.mem_cons_self _ _), hb]; simp⟩
      | true =>
        rw [List.all_eq_true]
        intro x hx
        rw [this x hx, hb]
  rw [hall, IsControlledBy_iff]
  simp only [lookup_guard_iff]

/-- Witness for C1: the seed query on owner kind Role and owner name admin
against the seed role system:bot. -/
theorem match_owner_iff_witness :
    [(ownerKind, "Role"), (ownerName, "admin")] ≠ [] ∧
      (∀ e ∈ [(ownerKind, "Role"), (ownerName, "admin")], e.1 = ownerKind ∨ e.1 = ownerName) ∧
      (clusterRoleSearcher.match seedConstants [(ownerKind, "Role"), (ownerName, "admin")]
          seedBot = true ↔
        ∃ ref ∈ seedBot.OwnerReferences, ref.Controller = true ∧
          (∀ v, [(ownerKind, "Role"), (ownerName, "admin")].lookup ownerKind = some v →
            v ≠ "" → ref.Kind = v) ∧
          (∀ v, [(ownerKind, "Role"), (ownerName, "admin")].lookup ownerName = some v →
            v ≠ "" → ref.Name = v)) :=
  ⟨by decide, by decide,
    match_owner_iff seedConstants seedBot [(ownerKind, "Role"), (ownerName, "admin")]
      (by decide) (by decide)⟩

/-- Counterexample to C1 as stated: the map with owner_kind present and empty
accepts system:bot, whose only controller reference has kind Role and not the
empty kind. -/
theorem match_owner_empty_value_counterexample :
    ¬ (clusterRoleSearcher.match seedConstants [(ownerKind, "")] seedBot = true ↔
      ∃ ref ∈ seedBot.OwnerReferences, ref.Controller = true ∧
        (∀ v, [(ownerKind, "")].lookup ownerKind = some v → ref.Kind = v) ∧
        (∀ v, [(ownerKind, "")].lookup ownerName = some v → ref.Name = v)) := by
  intro h
  have hm : clusterRoleSearcher.match seedConstants [(ownerKind, "")] seedBot = true := by
    decide
  obtain ⟨ref, href, -, hkind, -⟩ := h.mp hm
  have hk : ref.Kind = "" := hkind "" (by decide)
  have : ref = { Kind := "Role", Name := "admin", Controller := true } := by
    simpa [seedBot] using href
  rw [this] at hk
  exact absurd hk (by decide)

/-! ## C2 and C3: single fuzzy entries -/

/-- C2, at its failing input: the role carries the annotation note with value
alpha, so an annotation key and an annotation value contain the needle al and
the substring helper reports a hit, yet the fuzzy evaluator rejects the role
under the key annotation. -/
theorem fuzzy_annotation_rejects_containing_role :
    searchFuzzy [("note", "alpha")] "" "al" = true ∧
      clusterRoleSearcher.fuzzy seedConstants [( annotation, "al")]
        { Name := "r", CreationTimestamp := 0, Labels := [],
          Annotations := [("note", "alpha")], OwnerReferences := [] } = false := by
  decide

theorem searchFuzzy_empty_key_iff (m : List (String × String)) (v : String) :
    searchFuzzy m "" v = true ↔
      ∃ e ∈ m, Contains e.1 v = true ∨ Contains e.2 v = true := by
  simp [searchFuzzy]

theorem searchFuzzy_key_iff (m : List (String × String)) (k v : String) (hk : k ≠ "") :
    searchFuzzy m k v = true ↔
      ∃ val, m.lookup k = some val ∧ Contains val v = true := by
  unfold searchFuzzy
  rw [if_neg hk]
  cases m.lookup k <;> simp

theorem fuzzy_other_single (c : Constants) (r : ClusterRole) (k v : String)
    (h1 : k ≠ Name) (h2 : k ≠ label) (h3 : k ≠ annotation) :
    clusterRoleSearcher.fuzzy c [(k, v)] r =
      (searchFuzzy r.Labels k v || searchFuzzy r.Annotations k v) := by
  simp only [clusterRoleSearcher.fuzzy, if_neg h1, if_neg h2, if_neg h3]
  cases searchFuzzy r.Labels k v <;> cases searchFuzzy r.Annotations k v <;> rfl

/-- C3 (amended): under a non-empty key k other than name, label and
annotation, the one-entry fuzzy map accepts the role iff its labels hold an
entry under exactly k whose value contains v or its annotations hold such an
entry; under the empty key it accepts the role iff some key or some value of
its labels or of its annotations contains v. -/
theorem fuzzy_other_key_iff (c : Constants) (r : ClusterRole) (k v : String)
    (h1 : k ≠ Name) (h2 : k ≠ label) (h3 : k ≠ annotation) :
    (k ≠ "" →
      (clusterRoleSearcher.fuzzy c [(k, v)] r = true ↔
        (∃ val, r.Labels.lookup k = some val ∧ Contains val v = true) ∨
          ∃ val, r.Annotations.lookup k = some val ∧ Contains val v = true)) ∧
    (k = "" →
      (clusterRoleSearcher.fuzzy c [(k, v)] r = true ↔
        (∃ e ∈ r.Labels, Contains e.1 v = true ∨ Contains e.2 v = true) ∨
          ∃ e ∈ r.Annotations, Contains e.1 v = true ∨ Contains e.2 v = true)) := by
  rw [fuzzy_other_single c r k v h1 h2 h3, Bool.or_eq_true]
  constructor
  · intro hk
    rw [searchFuzzy_key_iff _ _ _ hk, searchFuzzy_key_iff _ _ _ hk]
  · intro hk
    subst hk
    rw [searchFuzzy_empty_key_iff, searchFuzzy_empty_key_iff]

/-- Witness for C3: the key tier with needle use against the seed role
editor, and the key tier is none of the reserved fuzzy keys. -/
theorem fuzzy_other_key_iff_witness :
    ("tier" ≠ Name ∧ "tier" ≠ label ∧ "tier" ≠ annotation) ∧
    (("tier" ≠ "" →
      (clusterRoleSearcher.fuzzy seedConstants [("tier", "use")] seedEditor = true ↔
        (∃ val, seedEditor.Labels.lookup "tier" = some val ∧ Contains val "use" = true) ∨
          ∃ val, seedEditor.Annotations.lookup "tier" = some val ∧
            Contains val "use" = true)) ∧
    ("tier" = "" →
      (clusterRoleSearcher.fuzzy seedConstants [("tier", "use")] seedEditor = true ↔
        (∃ e ∈ seedEditor.Labels, Contains e.1 "use" = true ∨ Contains e.2 "use" = true) ∨
          ∃ e ∈ seedEditor.Annotations,
            Contains e.1 "use" = true ∨ Contains e.2 "use" = true))) :=
  ⟨by decide,
    fuzzy_other_key_iff seedConstants seedEditor "tier" "use"
      (by decide) (by decide) (by decide)⟩

/-- Counterexample to C3 as stated: the empty key is none of name, label and
annotation, and with needle user it accepts the seed role editor, which has no
label and no annotation under the empty key. -/
theorem fuzzy_empty_key_counterexample :
    ("" ≠ Name ∧ "" ≠ label ∧ "" ≠ annotation) ∧
    ¬ (clusterRoleSearcher.fuzzy seedConstants [("", "user")] seedEditor = true ↔
      (∃ val, seedEditor.Labels.lookup "" = some val ∧ Contains val "user" = true) ∨
        ∃ val, seedEditor.Annotations.lookup "" = some val ∧ Contains val "user" = true) := by
  refine ⟨by decide, fun h => ?_⟩
  have hf : clusterRoleSearcher.fuzzy seedConstants [("", "user")] seedEditor = true := by
    decide
  have hl : seedEditor.Labels.lookup "" = none := by decide
  have ha : seedEditor.Annotations.lookup "" = none := by decide
  rcases h.mp hf with ⟨val, hv, -⟩ | ⟨val, hv, -⟩
  · rw [hl] at hv; exact Option.noConfusion hv
  · rw [ha] at hv; exact Option.noConfusion hv

/-! ## C4, C5, C6: conjunction and iteration order -/

theorem mem_keys_of_lookup_eq_some {l : List (String × String)} {k v : String}
    (h : l.lookup k = some v) : (k, v) ∈ l := by
  induction l with
  | nil => simp at h
  | cons e rest ih =>
    obtain ⟨k', v'⟩ := e
    by_cases hk : k = k'
    · subst hk
      simp only [List.lookup_cons, beq_self_eq_true, Option.some.injEq] at h
      subst h
      exact List.mem_cons_self _ _
    · have hb : (k == k') = false := by simpa using hk
      simp only [List.lookup_cons, hb] at h
      exact List.mem_cons_of_mem _ (ih h)

theorem lookup_eq_some_of_mem {l : List (String × String)} {k v : String}
    (hnd : (l.map Prod.fst).Nodup) (h : (k, v) ∈ l) : l.lookup k = some v := by
  induction l with
  | nil => simp at h
  | cons e rest ih =>
    obtain ⟨k', v'⟩ := e
    rw [List.map_cons, List.nodup_cons] at hnd
    rcases List.mem_cons.mp h with heq | hmem
    · cases heq
      simp [List.lookup_cons]
    · have hk : k ≠ k' := by
        rintro rfl
        exact hnd.1 (List.mem_map.mpr ⟨(k, v), hmem, rfl⟩)
      have hb : (k == k') = false := by simpa using hk
      simp only [List.lookup_cons, hb]
      exact ih hnd.2 hmem

theorem lookup_perm {p p' : List (String × String)} (hnd : (p.map Prod.fst).Nodup)
    (hperm : p'.Perm p) (k : String) : p'.lookup k = p.lookup k := by
  have hnd' : (p'.map Prod.fst).Nodup := (hperm.map Prod.fst).nodup_iff.mpr hnd
  cases h : p.lookup k with
  | some v =>
    exact lookup_eq_some_of_mem hnd' (hperm.mem_iff.mpr (mem_keys_of_lookup_eq_some h))
  | none =>
    cases h' : p'.lookup k with
    | none => rfl
    | some w =>
      have := lookup_eq_some_of_mem hnd (hperm.mem_iff.mp (mem_keys_of_lookup_eq_some h'))
      rw [h] at this
      exact Option.noConfusion this

theorem mapIndex_perm {p p' : List (String × String)} (hnd : (p.map Prod.fst).Nodup)
    (hperm : p'.Perm p) (k : String) : mapIndex p' k = mapIndex p k := by
  unfold mapIndex
  rw [lookup_perm hnd hperm]

theorem matchLoop_single_of_not_owner (c : Constants) (m m' : List (String × String))
    (r : ClusterRole) (k v : String) (h1 : k ≠ ownerKind) (h2 : k ≠ ownerName) :
    clusterRoleSearcher.matchLoop c m r [(k, v)] =
      clusterRoleSearcher.matchLoop c m' r [(k, v)] := by
  simp [clusterRoleSearcher.matchLoop, h1, h2]

theorem matchLoop_single_congr (c : Constants) (m m' : List (String × String))
    (r : ClusterRole) (e : String × String)
    (hk : mapIndex m ownerKind = mapIndex m' ownerKind)
    (hn : mapIndex m ownerName = mapIndex m' ownerName) :
    clusterRoleSearcher.matchLoop c m r [e] = clusterRoleSearcher.matchLoop c m' r [e] := by
  obtain ⟨k, v⟩ := e
  by_cases ho : k = ownerKind ∨ k = ownerName
  · rw [matchLoop_owner c m r k v ho, matchLoop_owner c m' r k v ho, hk, hn]
  · rw [not_or] at ho
    exact matchLoop_single_of_not_owner c m m' r k v ho.1 ho.2

theorem all_perm {α : Type} (f : α → Bool) {l l' : List α} (hperm : l'.Perm l) :
    l'.all f = l.all f := by
  rw [Bool.eq_iff_iff, List.all_eq_true, List.all_eq_true]
  exact ⟨fun h x hx => h x (hperm.mem_iff.mpr hx), fun h x hx => h x (hperm.mem_iff.mp hx)⟩

theorem match_perm (c : Constants) (r : ClusterRole) {p p' : List (String × String)}
    (hnd : (p.map Prod.fst).Nodup) (hperm : p'.Perm p) :
    clusterRoleSearcher.match c p' r = clusterRoleSearcher.match c p r := by
  unfold clusterRoleSearcher.match
  rw [matchLoop_eq_all, matchLoop_eq_all c p, all_perm _ hperm]
  congr 1
  funext e
  exact matchLoop_single_congr c p' p r e (mapIndex_perm hnd hperm _) (mapIndex_perm hnd hperm _)

theorem fuzzy_perm (c : Constants) (r : ClusterRole) {p p' : List (String × String)}
    (hperm : p'.Perm p) :
    clusterRoleSearcher.fuzzy c p' r = clusterRoleSearcher.fuzzy c p r := by
  rw [fuzzy_eq_all, fuzzy_eq_all c r p, all_perm _ hperm]

/-- C5: for a predicate map with pairwise distinct keys, match gives the same
answer for every order in which the entries are visited, and so does fuzzy;
the map may hold both owner_kind and owner_name. -/
theorem match_fuzzy_order_independent (c : Constants) (r : ClusterRole)
    (p p' : List (String × String)) (hnd : (p.map Prod.fst).Nodup) (hperm : p'.Perm p) :
    clusterRoleSearcher.match c p' r = clusterRoleSearcher.match c p r ∧
      clusterRoleSearcher.fuzzy c p' r = clusterRoleSearcher.fuzzy c p r :=
  ⟨match_perm c r hnd hperm, fuzzy_perm c r hperm⟩

/-- Witness for C5: the owner pair visited name first and kind first, against
the seed role system:bot. -/
theorem match_fuzzy_order_independent_witness :
    (([(ownerKind, "Role"), (ownerName, "admin")].map Prod.fst).Nodup ∧
      [(ownerName, "admin"), (ownerKind, "Role")].Perm
        [(ownerKind, "Role"), (ownerName, "admin")]) ∧
    (clusterRoleSearcher.match seedConstants [(ownerName, "admin"), (ownerKind, "Role")]
        seedBot =
      clusterRoleSearcher.match seedConstants [(ownerKind, "Role"), (ownerName, "admin")]
        seedBot ∧
    clusterRoleSearcher.fuzzy seedConstants [(ownerName, "admin"), (ownerKind, "Role")]
        seedBot =
      clusterRoleSearcher.fuzzy seedConstants [(ownerKind, "Role"), (ownerName, "admin")]
        seedBot) :=
  ⟨⟨by decide, List.Perm.swap _ _ _⟩,
    match_fuzzy_order_independent seedConstants seedBot
      [(ownerKind, "Role"), (ownerName, "admin")] [(ownerName, "admin"), (ownerKind, "Role")]
      (by decide) (List.Perm.swap _ _ _)⟩

theorem lookup_eq_none_of_not_mem_keys {l : List (String × String)} {k : String}
    (hk : k ∉ l.map Prod.fst) : l.lookup k = none := by
  cases h : l.lookup k with
  | none => rfl
  | some v =>
    exact absurd (List.mem_map.mpr ⟨(k, v), mem_keys_of_lookup_eq_some h, rfl⟩) hk

theorem mapIndex_cons_fresh (p : List (String × String)) (k v x : String)
    (hk : k ∉ p.map Prod.fst) :
    mapIndex p x = "" ∨ mapIndex p x = mapIndex ((k, v) :: p) x := by
  by_cases hx : x = k
  · subst hx
    left
    simp [mapIndex, lookup_eq_none_of_not_mem_keys hk]
  · right
    have hb : (x == k) = false := by simpa using hx
    simp [mapIndex, List.lookup_cons, hb]

theorem IsControlledBy_mono (refs : List OwnerReference) (kind kind' name name' : String)
    (hkind : kind = "" ∨ kind = kind') (hname : name = "" ∨ name = name')
    (h : IsControlledBy refs kind' name' = true) : IsControlledBy refs kind name = true := by
  rw [IsControlledBy_iff] at h ⊢
  obtain ⟨ref, href, hc, hk, hn⟩ := h
  refine ⟨ref, href, hc, ?_, ?_⟩
  · rcases hkind with h0 | h0
    · exact Or.inl h0
    · rcases hk with h1 | h1
      · exact Or.inl (h0.trans h1)
      · exact Or.inr (h1.trans h0.symm)
  · rcases hname with h0 | h0
    · exact Or.inl h0
    · rcases hn with h1 | h1
      · exact Or.inl (h0.trans h1)
      · exact Or.inr (h1.trans h0.symm)

theorem match_of_match_cons (c : Constants) (r : ClusterRole) (p : List (String × String))
    (k v : String) (hk : k ∉ p.map Prod.fst)
    (h : clusterRoleSearcher.match c ((k, v) :: p) r = true) :
    clusterRoleSearcher.match c p r = true := by
  unfold clusterRoleSearcher.match at h ⊢
  rw [matchLoop_eq_all, List.all_eq_true] at h ⊢
  rintro ⟨k', v'⟩ he
  have h' := h (k', v') (List.mem_cons_of_mem _ he)
  by_cases ho : k' = ownerKind ∨ k' = ownerName
  · rw [matchLoop_owner _ _ _ _ _ ho] at h' ⊢
    exact IsControlledBy_mono _ _ _ _ _ (mapIndex_cons_fresh p k v _ hk)
      (mapIndex_cons_fresh p k v _ hk) h'
  · rw [not_or] at ho
    rw [matchLoop_single_of_not_owner c p ((k, v) :: p) r k' v' ho.1 ho.2]
    exact h'

theorem match_mono (c : Constants) (r : ClusterRole) (p p' : List (String × String))
    (k v : String) (hnd : (p.map Prod.fst).Nodup) (hk : k ∉ p.map Prod.fst)
    (hperm : p'.Perm ((k, v) :: p)) (h : clusterRoleSearcher.match c p' r = true) :
    clusterRoleSearcher.match c p r = true := by
  have hnd' : (((k, v) :: p).map Prod.fst).Nodup := by
    rw [List.map_cons, List.nodup_cons]
    exact ⟨hk, hnd⟩
  rw [match_perm c r hnd' hperm] at h
  exact match_of_match_cons c r p k v hk h

theorem fuzzy_mono (c : Constants) (r : ClusterRole) (p p' : List (String × String))
    (k v : String) (hperm : p'.Perm ((k, v) :: p))
    (h : clusterRoleSearcher.fuzzy c p' r = true) :
    clusterRoleSearcher.fuzzy c p r = true := by
  rw [fuzzy_perm c r hperm, fuzzy_cons, Bool.and_eq_true] at h
  exact h.2

/-! ## The search orchestrator -/

theorem match_nil (c : Constants) (r : ClusterRole) :
    clusterRoleSearcher.match c [] r = true := rfl

theorem fuzzy_nil (c : Constants) (r : ClusterRole) :
    clusterRoleSearcher.fuzzy c [] r = true := rfl

theorem retained_eq_filter (c : Constants) (q : Conditions) (S : List ClusterRole) :
    clusterRoleSearcher.retained c q S =
      S.filter fun item =>
        clusterRoleSearcher.match c q.Match item && clusterRoleSearcher.fuzzy c q.Fuzzy item := by
  unfold clusterRoleSearcher.retained
  split_ifs with h
  · obtain ⟨hm, hf⟩ := h
    rw [List.length_eq_zero] at hm hf
    rw [hm, hf]
    simp [match_nil, fuzzy_nil]
  · rfl

theorem search_ok (sortSlice : (ClusterRole → ClusterRole → Bool) → List ClusterRole →
    List ClusterRole) (c : Constants) (S : List ClusterRole) (q : Conditions)
    (orderBy : String) (reverse : Bool) :
    clusterRoleSearcher.search sortSlice c (.ok S) q orderBy reverse =
      .ok (sortSlice (clusterRoleSearcher.less orderBy reverse)
        (clusterRoleSearcher.retained c q S)) := rfl

theorem mem_search_iff {sortSlice : (ClusterRole → ClusterRole → Bool) → List ClusterRole →
    List ClusterRole} (hs : SortSliceContract sortSlice) (c : Constants)
    (S : List ClusterRole) (q : Conditions) (orderBy : String) (reverse : Bool)
    (out : List ClusterRole)
    (h : clusterRoleSearcher.search sortSlice c (.ok S) q orderBy reverse = .ok out)
    (r : ClusterRole) :
    r ∈ out ↔ r ∈ S ∧ clusterRoleSearcher.match c q.Match r = true ∧
      clusterRoleSearcher.fuzzy c q.Fuzzy r = true := by
  rw [search_ok] at h
  cases h
  rw [(hs.1 _ _).mem_iff, retained_eq_filter, List.mem_filter, Bool.and_eq_true]

/-- C4: adding a key that the map does not hold yet never enlarges what is
accepted.  With p a map of pairwise distinct keys, k a key outside p and p'
any arrangement of p extended by the entry (k, v): a role that match accepts
under p' is accepted under p, a role that fuzzy accepts under p' is accepted
under p, and every role search returns for the extended query, extended in its
match map or in its fuzzy map, is returned for the original query. -/
theorem conjunction_monotone (c : Constants) (p p' : List (String × String)) (k v : String)
    (hnd : (p.map Prod.fst).Nodup) (hk : k ∉ p.map Prod.fst)
    (hperm : p'.Perm ((k, v) :: p)) :
    (∀ r, clusterRoleSearcher.match c p' r = true → clusterRoleSearcher.match c p r = true) ∧
    (∀ r, clusterRoleSearcher.fuzzy c p' r = true → clusterRoleSearcher.fuzzy c p r = true) ∧
    (∀ sortSlice, SortSliceContract sortSlice →
      ∀ (S : List ClusterRole) (other : List (String × String)) (orderBy : String)
        (reverse : Bool) (out out' : List ClusterRole),
        clusterRoleSearcher.search sortSlice c (.ok S) ⟨p, other⟩ orderBy reverse = .ok out →
        clusterRoleSearcher.search sortSlice c (.ok S) ⟨p', other⟩ orderBy reverse = .ok out' →
        ∀ r ∈ out', r ∈ out) ∧
    (∀ sortSlice, SortSliceContract sortSlice →
      ∀ (S : List ClusterRole) (other : List (String × String)) (orderBy : String)
        (reverse : Bool) (out out' : List ClusterRole),
        clusterRoleSearcher.search sortSlice c (.ok S) ⟨other, p⟩ orderBy reverse = .ok out →
        clusterRoleSearcher.search sortSlice c (.ok S) ⟨other, p'⟩ orderBy reverse = .ok out' →
        ∀ r ∈ out', r ∈ out) := by
  refine ⟨fun r => match_mono c r p p' k v hnd hk hperm,
    fun r => fuzzy_mono c r p p' k v hperm, ?_, ?_⟩
  · intro sortSlice hs S other orderBy reverse out out' ho ho' r hr
    rw [mem_search_iff hs c S _ orderBy reverse out ho]
    rw [mem_search_iff hs c S _ orderBy reverse out' ho'] at hr
    exact ⟨hr.1, match_mono c r p p' k v hnd hk hperm hr.2.1, hr.2.2⟩
  · intro sortSlice hs S other orderBy reverse out out' ho ho' r hr
    rw [mem_search_iff hs c S _ orderBy reverse out ho]
    rw [mem_search_iff hs c S _ orderBy reverse out' ho'] at hr
    exact ⟨hr.1, hr.2.1, fuzzy_mono c r p p' k v hperm hr.2.2⟩

/-- C6: for a match map m without owner_kind and owner_name and any fuzzy map
f, match accepts a role iff every entry of m accepts it on its own, fuzzy
accepts it iff every entry of f accepts it on its own, and the roles search
returns are the roles of the snapshot for which both hold. -/
theorem conjunction_semantics (c : Constants) (r : ClusterRole) (m f : List (String × String))
    (hm : ∀ e ∈ m, e.1 ≠ ownerKind ∧ e.1 ≠ ownerName) :
    (clusterRoleSearcher.match c m r = true ↔
      ∀ e ∈ m, clusterRoleSearcher.match c [e] r = true) ∧
    (clusterRoleSearcher.fuzzy c f r = true ↔
      ∀ e ∈ f, clusterRoleSearcher.fuzzy c [e] r = true) ∧
    (∀ sortSlice, SortSliceContract sortSlice →
      ∀ (S : List ClusterRole) (orderBy : String) (reverse : Bool) (out : List ClusterRole),
        clusterRoleSearcher.search sortSlice c (.ok S) ⟨m, f⟩ orderBy reverse = .ok out →
        ∀ x, x ∈ out ↔ x ∈ S ∧ (∀ e ∈ m, clusterRoleSearcher.match c [e] x = true) ∧
          ∀ e ∈ f, clusterRoleSearcher.fuzzy c [e] x = true) := by
  have hmatch : ∀ x, clusterRoleSearcher.match c m x = true ↔
      ∀ e ∈ m, clusterRoleSearcher.match c [e] x = true := by
    intro x
    unfold clusterRoleSearcher.match
    rw [matchLoop_eq_all, List.all_eq_true]
    refine forall₂_congr fun e he => ?_
    obtain ⟨k, v⟩ := e
    rw [matchLoop_single_of_not_owner c m [(k, v)] x k v (hm _ he).1 (hm _ he).2]
  have hfuzzy : ∀ x, clusterRoleSearcher.fuzzy c f x = true ↔
      ∀ e ∈ f, clusterRoleSearcher.fuzzy c [e] x = true := by
    intro x
    rw [fuzzy_eq_all, List.all_eq_true]
  refine ⟨hmatch r, hfuzzy r, ?_⟩
  intro sortSlice hs S orderBy reverse out ho x
  rw [mem_search_iff hs c S _ orderBy reverse out ho x, hmatch x, hfuzzy x]

/-! ## The sorting procedures of package sort meet the contract -/

theorem insertionStep_perm {α : Type} (less : α → α → Bool) (x : α) (l : List α) :
    (insertionStep less x l).Perm (x :: l) := by
  induction l with
  | nil => exact List.Perm.refl _
  | cons y ys ih =>
    simp only [insertionStep]
    split_ifs
    · exact (ih.cons y).trans (List.Perm.swap x y ys)
    · exact List.Perm.refl _

theorem insertionFold_perm {α : Type} (less : α → α → Bool) (data acc : List α) :
    (data.foldl (fun sortedPart x => insertionStep less x sortedPart) acc).Perm
      (data ++ acc) := by
  induction data generalizing acc with
  | nil => exact List.Perm.refl _
  | cons x rest ih =>
    rw [List.foldl_cons]
    refine (ih _).trans ?_
    refine (List.Perm.append_left rest (insertionStep_perm less x acc)).trans ?_
    exact List.perm_middle

theorem insertionSort_perm {α : Type} (less : α → α → Bool) (data : List α) :
    (insertionSort less data).Perm data := by
  unfold insertionSort
  refine (List.reverse_perm _).trans ?_
  simpa using insertionFold_perm less data []

theorem StrictWeakOrder.asymm {α : Type} {lt : α → α → Bool} (h : StrictWeakOrder lt)
    {a b : α} (hab : lt a b = true) : lt b a = false := by
  cases hba : lt b a with
  | false => rfl
  | true =>
    have := h.trans a b a hab hba
    rw [h.irrefl a] at this
    exact Bool.noConfusion this

theorem StrictWeakOrder.flip {α : Type} {lt : α → α → Bool} (h : StrictWeakOrder lt) :
    StrictWeakOrder fun a b => lt b a :=
  { irrefl := fun a => h.irrefl a
    trans := fun a b c hab hbc => h.trans c b a hbc hab
    incomp_trans := fun a b c hab hbc => h.incomp_trans c b a hbc hab }

theorem AgreeAt.symm {α : Type} {less lt : α → α → Bool} {a b : α}
    (h : AgreeAt less lt a b) : AgreeAt less lt b a :=
  ⟨h.2, h.1⟩

theorem insertionStep_sorted {α : Type} {less lt : α → α → Bool} (hlt : StrictWeakOrder lt)
    (x : α) (acc : List α) (hag : ∀ y ∈ acc, less x y = lt x y)
    (hs : acc.Pairwise fun a b => lt a b = false) :
    (insertionStep less x acc).Pairwise fun a b => lt a b = false := by
  induction acc with
  | nil => simp [insertionStep]
  | cons y ys ih =>
    rw [List.pairwise_cons] at hs
    have hxy : less x y = lt x y := hag y (List.mem_cons_self _ _)
    simp only [insertionStep]
    split_ifs with hless
    · rw [List.pairwise_cons]
      refine ⟨?_, ih (fun z hz => hag z (List.mem_cons_of_mem _ hz)) hs.2⟩
      intro b hb
      rcases List.mem_cons.mp ((insertionStep_perm less x ys).mem_iff.mp hb) with rfl | hb'
      · exact hlt.asymm (hxy ▸ hless)
      · exact hs.1 b hb'
    · have hxy' : lt x y = false := by
        rw [← hxy]
        simpa using hless
      rw [List.pairwise_cons]
      refine ⟨?_, List.pairwise_cons.mpr hs⟩
      intro b hb
      rcases List.mem_cons.mp hb with rfl | hb'
      · exact hxy'
      · exact hlt.incomp_trans x y b hxy' (hs.1 b hb')

theorem insertionFold_sorted {α : Type} {less lt : α → α → Bool} (hlt : StrictWeakOrder lt)
    (data acc : List α) (hacc : acc.Pairwise fun a b => lt a b = false)
    (hdata : data.Pairwise (AgreeAt less lt))
    (hcross : ∀ a ∈ acc, ∀ b ∈ data, AgreeAt less lt a b) :
    (data.foldl (fun sortedPart x => insertionStep less x sortedPart) acc).Pairwise
      fun a b => lt a b = false := by
  induction data generalizing acc with
  | nil => exact hacc
  | cons x rest ih =>
    rw [List.pairwise_cons] at hdata
    rw [List.foldl_cons]
    refine ih _ ?_ hdata.2 ?_
    · exact insertionStep_sorted hlt x acc
        (fun y hy => (hcross y hy x (List.mem_cons_self _ _)).2) hacc
    · intro a ha b hb
      rcases List.mem_cons.mp ((insertionStep_perm less x acc).mem_iff.mp ha) with rfl | ha'
      · exact hdata.1 b hb
      · exact hcross a ha' b (List.mem_cons_of_mem _ hb)

theorem insertionSort_sorted {α : Type} {less lt : α → α → Bool} (hlt : StrictWeakOrder lt)
    (data : List α) (hdata : data.Pairwise (AgreeAt less lt)) :
    (insertionSort less data).Pairwise fun a b => lt b a = false := by
  unfold insertionSort
  rw [List.pairwise_reverse]
  exact insertionFold_sorted hlt data [] List.Pairwise.nil hdata (by simp)

theorem insertionSort_contract : SortSliceContract insertionSort :=
  ⟨fun less l => insertionSort_perm less l,
    fun _ _ l hlt hag => insertionSort_sorted hlt l hag⟩

theorem swapAt_perm {α : Type} [DecidableEq α] (data : List α) (i j : Nat) :
    (swapAt data i j).Perm data := by
  unfold swapAt
  split
  · rename_i x y hi hj
    obtain ⟨hil, hxi⟩ := List.getElem?_eq_some_iff.mp hi
    obtain ⟨hjl, hyj⟩ := List.getElem?_eq_some_iff.mp hj
    rw [List.perm_iff_count]
    intro b
    have hjl' : j < (data.set i y).length := by simpa using hjl
    have hj' : (data.set i y)[j] = y := by
      rw [List.getElem_set]
      split_ifs
      · rfl
      · exact hyj
    rw [List.count_set _ _ _ _ hjl', List.count_set _ _ _ _ hil, hj', hxi]
    have hx : x ∈ data := hxi ▸ List.getElem_mem hil
    by_cases hxb : x = b
    · subst hxb
      have : 0 < data.count x := List.count_pos_iff.mpr hx
      by_cases hyb : y = x <;> simp [hyb] <;> omega
    · by_cases hyb : y = b <;> simp [hxb, hyb]
  · exact List.Perm.refl _

theorem shellPass_perm {α : Type} [DecidableEq α] (less : α → α → Bool) (data : List α) :
    (shellPass less data).Perm data := by
  unfold shellPass
  generalize List.range (data.length - 6) = steps
  induction steps generalizing data with
  | nil => exact List.Perm.refl _
  | cons t rest ih =>
    rw [List.foldl_cons]
    refine (ih _).trans ?_
    split
    · split_ifs
      · exact swapAt_perm _ _ _
      · exact List.Perm.refl _
    · exact List.Perm.refl _

theorem shellInsertionSort_contract : SortSliceContract shellInsertionSort := by
  refine ⟨fun less l => ?_, fun less lt l hlt hag => ?_⟩
  · exact (insertionSort_perm less _).trans (shellPass_perm less l)
  · refine insertionSort_sorted hlt _ ?_
    exact (shellPass_perm less l).symm.pairwise hag (fun h => h.symm)

/-! ## The comparator -/

theorem compareChars_self (a : List Char) : compareChars a a = 0 := by
  induction a with
  | nil => rfl
  | cons x xs ih => simp [compareChars, ih]

theorem compareChars_range (a b : List Char) :
    compareChars a b = -1 ∨ compareChars a b = 0 ∨ compareChars a b = 1 := by
  induction a generalizing b with
  | nil => cases b <;> simp [compareChars]
  | cons x xs ih =>
    cases b with
    | nil => simp [compareChars]
    | cons y ys =>
      simp only [compareChars]
      split_ifs
      · simp
      · simp
      · exact ih ys

theorem compareChars_eq_zero {a b : List Char} (h : compareChars a b = 0) : a = b := by
  induction a generalizing b with
  | nil => cases b <;> simp_all [compareChars]
  | cons x xs ih =>
    cases b with
    | nil => simp [compareChars] at h
    | cons y ys =>
      by_cases h1 : x.toNat < y.toNat
      · simp [compareChars, h1] at h
      · by_cases h2 : y.toNat < x.toNat
        · simp [compareChars, h1, h2] at h
        · simp only [compareChars, if_neg h1, if_neg h2] at h
          have hxy : x = y := by
            apply Char.ext
            apply UInt32.ext
            have : x.toNat = y.toNat := by omega
            exact this
          rw [hxy, ih h]

theorem compareChars_swap (a b : List Char) : compareChars b a = -compareChars a b := by
  induction a generalizing b with
  | nil => cases b <;> simp [compareChars]
  | cons x xs ih =>
    cases b with
    | nil => simp [compareChars]
    | cons y ys =>
      simp only [compareChars]
      split_ifs
      all_goals first
        | exact ih ys
        | rfl
        | omega

theorem compareChars_trans {a b c : List Char} (hab : compareChars a b = -1)
    (hbc : compareChars b c = -1) : compareChars a c = -1 := by
  induction a generalizing b c with
  | nil =>
    cases c with
    | nil => cases b <;> simp [compareChars] at hab hbc
    | cons z zs => rfl
  | cons x xs ih =>
    cases b with
    | nil => simp [compareChars] at hab
    | cons y ys =>
      cases c with
      | nil => simp [compareChars] at hbc
      | cons z zs =>
        simp only [compareChars] at hab hbc ⊢
        split_ifs at hab hbc with h1 h2 h3 h4 h5 h6
        all_goals first
          | (rw [if_pos (by omega)])
          | (rw [if_neg (by omega), if_neg (by omega)]; exact ih hab hbc)

theorem stringsCompare_self (a : String) : stringsCompare a a = 0 :=
  compareChars_self a.data

theorem stringsCompare_eq_zero {a b : String} (h : stringsCompare a b = 0) : a = b :=
  String.ext (compareChars_eq_zero h)

theorem stringsCompare_swap (a b : String) : stringsCompare b a = -stringsCompare a b :=
  compareChars_swap a.data b.data

theorem stringsCompare_range (a b : String) :
    stringsCompare a b = -1 ∨ stringsCompare a b = 0 ∨ stringsCompare a b = 1 :=
  compareChars_range a.data b.data

theorem stringsCompare_trans {a b c : String} (hab : stringsCompare a b < 0)
    (hbc : stringsCompare b c < 0) : stringsCompare a c < 0 := by
  have h1 : stringsCompare a b = -1 := by
    rcases stringsCompare_range a b with h | h | h <;> omega
  have h2 : stringsCompare b c = -1 := by
    rcases stringsCompare_range b c with h | h | h <;> omega
  have : stringsCompare a c = -1 := compareChars_trans h1 h2
  omega

theorem stringsCompare_incomp_trans {a b c : String} (hab : ¬ stringsCompare a b < 0)
    (hbc : ¬ stringsCompare b c < 0) : ¬ stringsCompare a c < 0 := by
  intro hac
  by_cases h1 : stringsCompare a b = 0
  · rw [stringsCompare_eq_zero h1] at hac
    exact hbc hac
  · by_cases h2 : stringsCompare b c = 0
    · rw [← stringsCompare_eq_zero h2] at hac
      exact hab hac
    · have hba : stringsCompare b a < 0 := by
        rw [stringsCompare_swap a b]
        omega
      have hcb : stringsCompare c b < 0 := by
        rw [stringsCompare_swap b c]
        omega
      have hca := stringsCompare_trans hcb hba
      rw [stringsCompare_swap a c] at hca
      omega

theorem keyBefore_strictWeakOrder (orderBy : String) : StrictWeakOrder (keyBefore orderBy) := by
  by_cases h : orderBy = CreateTime
  · refine ⟨fun a => ?_, fun a b c hab hbc => ?_, fun a b c hab hbc => ?_⟩
    · simp [keyBefore, h]
    · simp only [keyBefore, h, if_true, decide_eq_true_eq] at hab hbc ⊢
      omega
    · simp only [keyBefore, h, if_true, decide_eq_false_iff_not] at hab hbc ⊢
      omega
  · refine ⟨fun a => ?_, fun a b c hab hbc => ?_, fun a b c hab hbc => ?_⟩
    · simp [keyBefore, h, stringsCompare_self]
    · simp only [keyBefore, h, if_false, decide_eq_true_eq] at hab hbc ⊢
      exact stringsCompare_trans hab hbc
    · simp only [keyBefore, h, if_false, decide_eq_false_iff_not] at hab hbc ⊢
      exact stringsCompare_incomp_trans hab hbc

theorem keyBefore_total (orderBy : String) (a b : ClusterRole)
    (hne : sameKey orderBy a b = false) :
    keyBefore orderBy a b = true ∨ keyBefore orderBy b a = true := by
  by_cases h : orderBy = CreateTime
  · simp only [sameKey, keyBefore, h, if_true, decide_eq_true_eq,
      decide_eq_false_iff_not] at hne ⊢
    omega
  · simp only [sameKey, keyBefore, h, if_false, decide_eq_true_eq,
      decide_eq_false_iff_not] at hne ⊢
    have h0 : stringsCompare a.Name b.Name ≠ 0 := fun h0 => hne (stringsCompare_eq_zero h0)
    rw [stringsCompare_swap a.Name b.Name]
    omega

theorem sameKey_symm (orderBy : String) (a b : ClusterRole) :
    sameKey orderBy a b = sameKey orderBy b a := by
  unfold sameKey
  split_ifs
  · exact decide_eq_decide.mpr eq_comm
  · exact decide_eq_decide.mpr eq_comm

theorem compare_eq_keyBefore (orderBy : String) (a b : ClusterRole)
    (hne : sameKey orderBy a b = false) :
    clusterRoleSearcher.compare a b orderBy = keyBefore orderBy a b := by
  by_cases h : orderBy = CreateTime
  · simp [clusterRoleSearcher.compare, keyBefore, h]
  · simp only [sameKey, h, if_false, decide_eq_false_iff_not] at hne
    simp only [clusterRoleSearcher.compare, keyBefore, h, if_false]
    have h0 : stringsCompare a.Name b.Name ≠ 0 := fun h0 => hne (stringsCompare_eq_zero h0)
    exact decide_eq_decide.mpr ⟨fun hle => by omega, fun hlt => by omega⟩

theorem compare_createTime (a b : ClusterRole) :
    clusterRoleSearcher.compare a b CreateTime = keyBefore CreateTime a b := by
  simp [clusterRoleSearcher.compare, keyBefore]

theorem less_agree (orderBy : String) (a b : ClusterRole)
    (hne : sameKey orderBy a b = false) :
    AgreeAt (clusterRoleSearcher.less orderBy false) (keyBefore orderBy) a b ∧
      AgreeAt (clusterRoleSearcher.less orderBy true) (fun x y => keyBefore orderBy y x) a b := by
  have hne' : sameKey orderBy b a = false := by rw [sameKey_symm]; exact hne
  have h1 := compare_eq_keyBefore orderBy a b hne
  have h2 := compare_eq_keyBefore orderBy b a hne'
  exact ⟨⟨h1, h2⟩, ⟨h2, h1⟩⟩

/-- When no two roles of the list share an ordering key, sort.Slice with the
closure of search leaves the list in strictly increasing key order, and in
strictly decreasing key order when reverse is set. -/
theorem sortSlice_strict {sortSlice : (ClusterRole → ClusterRole → Bool) → List ClusterRole →
    List ClusterRole} (hs : SortSliceContract sortSlice) (orderBy : String)
    (l : List ClusterRole) (hkeys : l.Pairwise fun a b => sameKey orderBy a b = false) :
    ((sortSlice (clusterRoleSearcher.less orderBy false) l).Pairwise
        fun a b => keyBefore orderBy a b = true) ∧
      ((sortSlice (clusterRoleSearcher.less orderBy true) l).Pairwise
        fun a b => keyBefore orderBy b a = true) := by
  have hsymm : ∀ {x y : ClusterRole}, sameKey orderBy x y = false →
      sameKey orderBy y x = false := fun h => by rw [sameKey_symm]; exact h
  constructor
  · have h1 := hs.2 (clusterRoleSearcher.less orderBy false) (keyBefore orderBy) l
      (keyBefore_strictWeakOrder orderBy)
      (hkeys.imp fun h => (less_agree orderBy _ _ h).1)
    have h2 := (hs.1 (clusterRoleSearcher.less orderBy false) l).symm.pairwise hkeys hsymm
    refine (h1.and h2).imp ?_
    rintro a b ⟨hba, hne⟩
    rcases keyBefore_total orderBy a b hne with h | h
    · exact h
    · rw [hba] at h
      exact Bool.noConfusion h
  · have h1 := hs.2 (clusterRoleSearcher.less orderBy true) (fun x y => keyBefore orderBy y x) l
      (keyBefore_strictWeakOrder orderBy).flip
      (hkeys.imp fun h => (less_agree orderBy _ _ h).2)
    have h2 := (hs.1 (clusterRoleSearcher.less orderBy true) l).symm.pairwise hkeys hsymm
    refine (h1.and h2).imp ?_
    rintro a b ⟨hab, hne⟩
    have hab' : keyBefore orderBy a b = false := hab
    rcases keyBefore_total orderBy a b hne with h | h
    · rw [hab'] at h
      exact Bool.noConfusion h
    · exact h

/-- A list in strictly increasing key order is determined by its elements. -/
theorem eq_of_perm_of_keyBefore (orderBy : String) {l₁ l₂ : List ClusterRole}
    (hperm : l₁.Perm l₂) (h₁ : l₁.Pairwise fun a b => keyBefore orderBy a b = true)
    (h₂ : l₂.Pairwise fun a b => keyBefore orderBy a b = true) : l₁ = l₂ := by
  have hanti : ∀ a b, a ∈ l₁ → b ∈ l₂ → keyBefore orderBy a b = true →
      keyBefore orderBy b a = true → a = b := by
    intro a b _ _ hab hba
    rw [(keyBefore_strictWeakOrder orderBy).asymm hab] at hba
    exact Bool.noConfusion hba
  exact List.Perm.eq_of_sorted hanti h₁ h₂ hperm

/-! ## Witnesses for C4 and C6 -/

/-- Witness for C4: owner_kind added to a map that already holds owner_name. -/
theorem conjunction_monotone_witness :
    (([(ownerName, "admin")].map Prod.fst).Nodup ∧
      ownerKind ∉ [(ownerName, "admin")].map Prod.fst ∧
      [(ownerKind, "Role"), (ownerName, "admin")].Perm
        ((ownerKind, "Role") :: [(ownerName, "admin")])) ∧
    (∀ r, clusterRoleSearcher.match seedConstants [(ownerKind, "Role"), (ownerName, "admin")]
        r = true →
      clusterRoleSearcher.match seedConstants [(ownerName, "admin")] r = true) :=
  ⟨⟨by decide, by decide, List.Perm.refl _⟩,
    (conjunction_monotone seedConstants [(ownerName, "admin")]
      [(ownerKind, "Role"), (ownerName, "admin")] ownerKind "Role"
      (by decide) (by decide) (List.Perm.refl _)).1⟩

/-- Witness for C6: a label predicate and a user-facing predicate against the
seed role editor. -/
theorem conjunction_semantics_witness :
    (∀ e ∈ [("tier", "user"), ("userfacing", "true")], e.1 ≠ ownerKind ∧ e.1 ≠ ownerName) ∧
    (clusterRoleSearcher.match seedConstants [("tier", "user"), ("userfacing", "true")]
        seedEditor = true ↔
      ∀ e ∈ [("tier", "user"), ("userfacing", "true")],
        clusterRoleSearcher.match seedConstants [e] seedEditor = true) :=
  ⟨by decide,
    (conjunction_semantics seedConstants seedEditor
      [("tier", "user"), ("userfacing", "true")] [(Name, "edit")] (by decide)).1⟩

/-! ## C7 to C10: the result of search -/

/-- C7: when the lister succeeds, search returns a rearrangement of the roles
of the snapshot that both match and fuzzy accept, each as often as the snapshot
holds it.  Both evaluators accept every role under an empty map, so for the
empty query the result is a rearrangement of the whole snapshot, as the
shortcut in the code has it. -/
theorem search_perm_filter
    (sortSlice : (ClusterRole → ClusterRole → Bool) → List ClusterRole → List ClusterRole)
    (hs : SortSliceContract sortSlice) (c : Constants) (S : List ClusterRole)
    (q : Conditions) (orderBy : String) (reverse : Bool) :
    ∃ out, clusterRoleSearcher.search sortSlice c (.ok S) q orderBy reverse = .ok out ∧
      out.Perm (S.filter fun r =>
        clusterRoleSearcher.match c q.Match r && clusterRoleSearcher.fuzzy c q.Fuzzy r) ∧
      (∀ r, clusterRoleSearcher.match c [] r = true ∧ clusterRoleSearcher.fuzzy c [] r = true) ∧
      (q.Match = [] → q.Fuzzy = [] → out.Perm S) := by
  refine ⟨_, search_ok sortSlice c S q orderBy reverse, ?_, fun r => ⟨rfl, rfl⟩, ?_⟩
  · rw [← retained_eq_filter]
    exact hs.1 _ _
  · intro hm hf
    refine (hs.1 _ _).trans ?_
    simp [clusterRoleSearcher.retained, hm, hf]

/-- Witness for C7: the seed query on the label tier, sorted by insertion
sort. -/
theorem search_perm_filter_witness :
    SortSliceContract insertionSort ∧
    ∃ out, clusterRoleSearcher.search insertionSort seedConstants (.ok seedSnapshot)
        ⟨[("tier", "user")], []⟩ Name false = .ok out ∧
      out.Perm (seedSnapshot.filter fun r =>
        clusterRoleSearcher.match seedConstants [("tier", "user")] r &&
          clusterRoleSearcher.fuzzy seedConstants [] r) ∧
      (∀ r, clusterRoleSearcher.match seedConstants [] r = true ∧
        clusterRoleSearcher.fuzzy seedConstants [] r = true) ∧
      ([("tier", "user")] = [] → ([] : List (String × String)) = [] →
        out.Perm seedSnapshot) :=
  ⟨insertionSort_contract,
    search_perm_filter insertionSort insertionSort_contract seedConstants seedSnapshot
      ⟨[("tier", "user")], []⟩ Name false⟩

theorem sameKey_name_of_ne {a b : ClusterRole} (h : a.Name ≠ b.Name) :
    sameKey Name a b = false := by
  have hn : Name ≠ CreateTime := by decide
  simp [sameKey, hn, h]

theorem keyBefore_name (a b : ClusterRole) :
    keyBefore Name a b = decide (stringsCompare a.Name b.Name < 0) := by
  have hn : Name ≠ CreateTime := by decide
  simp [keyBefore, hn]

/-- C8: on a snapshot whose role names are pairwise distinct, search with the
empty query, order_by name and reverse unset returns all roles of the snapshot,
each name strictly smaller in lexicographic order than the names after it; on
the seed snapshot that is admin, editor, system:bot, viewer. -/
theorem empty_query_sorted_by_name
    (sortSlice : (ClusterRole → ClusterRole → Bool) → List ClusterRole → List ClusterRole)
    (hs : SortSliceContract sortSlice) (c : Constants) (S : List ClusterRole)
    (hnames : S.Pairwise fun a b => a.Name ≠ b.Name) :
    ∃ out, clusterRoleSearcher.search sortSlice c (.ok S) ⟨[], []⟩ Name false = .ok out ∧
      out.Perm S ∧
      (out.Pairwise fun a b => stringsCompare a.Name b.Name < 0) ∧
      (S = seedSnapshot → out = [seedAdmin, seedEditor, seedBot, seedViewer]) := by
  have hret : clusterRoleSearcher.retained c ⟨[], []⟩ S = S := by
    simp [clusterRoleSearcher.retained]
  have hperm : (sortSlice (clusterRoleSearcher.less Name false) S).Perm S := hs.1 _ _
  have hsorted := (sortSlice_strict hs Name S (hnames.imp sameKey_name_of_ne)).1
  refine ⟨sortSlice (clusterRoleSearcher.less Name false) S, ?_, hperm, ?_, ?_⟩
  · rw [search_ok, hret]
  · refine hsorted.imp ?_
    intro a b hab
    rw [keyBefore_name] at hab
    exact of_decide_eq_true hab
  · intro hS
    subst hS
    refine eq_of_perm_of_keyBefore Name ?_ hsorted (by decide)
    refine hperm.trans ?_
    have hmove : ([seedViewer] ++ [seedEditor, seedBot]).Perm
        ([seedEditor, seedBot] ++ [seedViewer]) := List.perm_append_comm
    exact List.Perm.cons seedAdmin hmove

/-- Witness for C8: the seed snapshot, sorted by insertion sort. -/
theorem empty_query_sorted_by_name_witness :
    (SortSliceContract insertionSort ∧ seedSnapshot.Pairwise fun a b => a.Name ≠ b.Name) ∧
    ∃ out, clusterRoleSearcher.search insertionSort seedConstants (.ok seedSnapshot)
        ⟨[], []⟩ Name false = .ok out ∧
      out.Perm seedSnapshot ∧
      (out.Pairwise fun a b => stringsCompare a.Name b.Name < 0) ∧
      (seedSnapshot = seedSnapshot → out = [seedAdmin, seedEditor, seedBot, seedViewer]) :=
  ⟨⟨insertionSort_contract, by decide⟩,
    empty_query_sorted_by_name insertionSort insertionSort_contract seedConstants seedSnapshot
      (by decide)⟩

/-- C9: when no two retained roles share an ordering key, search with reverse
set returns the list reversal of what it returns with reverse unset. -/
theorem reverse_involution
    (sortSlice : (ClusterRole → ClusterRole → Bool) → List ClusterRole → List ClusterRole)
    (hs : SortSliceContract sortSlice) (c : Constants) (S : List ClusterRole)
    (q : Conditions) (orderBy : String)
    (hkeys : (clusterRoleSearcher.retained c q S).Pairwise
      fun a b => sameKey orderBy a b = false) :
    clusterRoleSearcher.search sortSlice c (.ok S) q orderBy true =
      (clusterRoleSearcher.search sortSlice c (.ok S) q orderBy false).map List.reverse := by
  obtain ⟨hup, hdown⟩ := sortSlice_strict hs orderBy _ hkeys
  have hperm : (sortSlice (clusterRoleSearcher.less orderBy true)
      (clusterRoleSearcher.retained c q S)).reverse.Perm
      (sortSlice (clusterRoleSearcher.less orderBy false)
        (clusterRoleSearcher.retained c q S)) :=
    (List.reverse_perm _).trans ((hs.1 _ _).trans (hs.1 _ _).symm)
  have heq := eq_of_perm_of_keyBefore orderBy hperm (List.pairwise_reverse.mpr hdown) hup
  rw [search_ok, search_ok, ← heq]
  simp [Except.map]

/-- Witness for C9: the seed snapshot under the empty query, ordered by
creation time. -/
theorem reverse_involution_witness :
    (SortSliceContract insertionSort ∧
      (clusterRoleSearcher.retained seedConstants ⟨[], []⟩ seedSnapshot).Pairwise
        fun a b => sameKey CreateTime a b = false) ∧
    clusterRoleSearcher.search insertionSort seedConstants (.ok seedSnapshot) ⟨[], []⟩
        CreateTime true =
      (clusterRoleSearcher.search insertionSort seedConstants (.ok seedSnapshot) ⟨[], []⟩
        CreateTime false).map List.reverse :=
  ⟨⟨insertionSort_contract, by decide⟩,
    reverse_involution insertionSort insertionSort_contract seedConstants seedSnapshot
      ⟨[], []⟩ CreateTime (by decide)⟩

/-- Counterexample to C10 as stated.  The gap-six pass followed by insertion
sort, which is what sort.Slice runs on seven elements up to Go 1.18, meets the
contract of sort.Slice.  On the snapshot a, b, c, d, e, f, g, where g is the
oldest role and the other six share one creation time, search by creation time
returns g, b, c, d, e, f, a: the roles a and b have equal keys, a stands before
b in the snapshot and after b in the result. -/
theorem stable_order_counterexample :
    SortSliceContract shellInsertionSort ∧
    clusterRoleSearcher.search shellInsertionSort seedConstants (.ok tiedSnapshot) ⟨[], []⟩
        CreateTime false =
      .ok [bareRole "g" 0, bareRole "b" 1, bareRole "c" 1, bareRole "d" 1, bareRole "e" 1,
        bareRole "f" 1, bareRole "a" 1] ∧
    ¬ ∀ sortSlice, SortSliceContract sortSlice →
      ∀ out, clusterRoleSearcher.search sortSlice seedConstants (.ok tiedSnapshot) ⟨[], []⟩
          CreateTime false = .ok out →
        ∀ x, out.filter (sameKey CreateTime x) =
          (clusterRoleSearcher.retained seedConstants ⟨[], []⟩ tiedSnapshot).filter
            (sameKey CreateTime x) := by
  refine ⟨shellInsertionSort_contract, by decide, fun h => ?_⟩
  have := h shellInsertionSort shellInsertionSort_contract _ rfl (bareRole "a" 1)
  revert this
  decide

/-- C10 (amended): under order_by create_time search returns the retained
roles ordered by creation time, no role standing before an older one, and with
reverse set no role standing before a younger one.  Roles with equal creation
times may come out in any relative order. -/
theorem createTime_order
    (sortSlice : (ClusterRole → ClusterRole → Bool) → List ClusterRole → List ClusterRole)
    (hs : SortSliceContract sortSlice) (c : Constants) (S : List ClusterRole)
    (q : Conditions) (reverse : Bool) :
    ∃ out, clusterRoleSearcher.search sortSlice c (.ok S) q CreateTime reverse = .ok out ∧
      out.Perm (clusterRoleSearcher.retained c q S) ∧
      out.Pairwise fun a b =>
        if reverse then b.CreationTimestamp ≤ a.CreationTimestamp
        else a.CreationTimestamp ≤ b.CreationTimestamp := by
  refine ⟨_, search_ok sortSlice c S q CreateTime reverse, hs.1 _ _, ?_⟩
  cases reverse with
  | false =>
    have h := hs.2 (clusterRoleSearcher.less CreateTime false) (keyBefore CreateTime)
      (clusterRoleSearcher.retained c q S) (keyBefore_strictWeakOrder CreateTime)
      (List.pairwise_of_forall fun a b =>
        ⟨compare_createTime a b, compare_createTime b a⟩)
    refine h.imp ?_
    intro a b hba
    simp only [keyBefore, if_true, decide_eq_false_iff_not, not_lt] at hba
    simpa using hba
  | true =>
    have h := hs.2 (clusterRoleSearcher.less CreateTime true)
      (fun x y => keyBefore CreateTime y x)
      (clusterRoleSearcher.retained c q S) (keyBefore_strictWeakOrder CreateTime).flip
      (List.pairwise_of_forall fun a b =>
        ⟨compare_createTime b a, compare_createTime a b⟩)
    refine h.imp ?_
    intro a b hab
    simp only [keyBefore, if_true, decide_eq_false_iff_not, not_lt] at hab
    simpa using hab

/-- Witness for C10 (amended): the snapshot with six tied roles, sorted by the
gap-six pass and insertion sort. -/
theorem createTime_order_witness :
    SortSliceContract shellInsertionSort ∧
    ∃ out, clusterRoleSearcher.search shellInsertionSort seedConstants (.ok tiedSnapshot)
        ⟨[], []⟩ CreateTime false = .ok out ∧
      out.Perm (clusterRoleSearcher.retained seedConstants ⟨[], []⟩ tiedSnapshot) ∧
      out.Pairwise fun a b =>
        if false then b.CreationTimestamp ≤ a.CreationTimestamp
        else a.CreationTimestamp ≤ b.CreationTimestamp :=
  ⟨shellInsertionSort_contract,
    createTime_order shellInsertionSort shellInsertionSort_contract seedConstants tiedSnapshot
      ⟨[], []⟩ false⟩

theorem char_eq_of_toNat_eq {x y : Char} (h : x.toNat = y.toNat) : x = y := by
  apply Char.ext
  apply UInt32.ext
  exact h

/-- The three-way comparison is negative exactly when the first sequence is
smaller in the lexicographic order of lists of characters. -/
theorem compareChars_neg_iff (a b : List Char) :
    compareChars a b < 0 ↔ List.Lex (fun x y : Char => x < y) a b := by
  induction a generalizing b with
  | nil =>
    cases b with
    | nil =>
      simp only [compareChars]
      exact ⟨fun h => absurd h (by omega), fun h => nomatch h⟩
    | cons y ys =>
      simp only [compareChars]
      exact ⟨fun _ => List.Lex.nil, fun _ => by omega⟩
  | cons x xs ih =>
    cases b with
    | nil =>
      simp only [compareChars]
      exact ⟨fun h => absurd h (by omega), fun h => nomatch h⟩
    | cons y ys =>
      simp only [compareChars]
      by_cases h1 : x.toNat < y.toNat
      · rw [if_pos h1]
        exact ⟨fun _ => List.Lex.rel h1, fun _ => by omega⟩
      · rw [if_neg h1]
        by_cases h2 : y.toNat < x.toNat
        · rw [if_pos h2]
          constructor
          · intro h; omega
          · intro h
            cases h with
            | cons _ => omega
            | rel h => exact absurd h h1
        · rw [if_neg h2, ih ys]
          have hxy : x = y := char_eq_of_toNat_eq (by omega)
          subst hxy
          constructor
          · intro h
            exact List.Lex.cons h
          · intro h
            cases h with
            | cons h => exact h
            | rel h => exact absurd h h1

/-- The comparison of strings.Compare is the order of strings: the result is
negative exactly when the first string is the smaller one. -/
theorem stringsCompare_neg_iff (a b : String) : stringsCompare a b < 0 ↔ a < b := by
  unfold stringsCompare
  rw [compareChars_neg_iff, String.lt_iff_toList_lt]
  rfl

/-! ## C11 to C15: single entries of the two maps -/

theorem HasString_iff (slice : List String) (str : String) :
    HasString slice str = true ↔ str ∈ slice := by
  simp [HasString]

theorem splitOnP_go_no_sep {α : Type} (p : α → Bool) (xs acc : List α)
    (hacc : ∀ x ∈ acc, p x = false) :
    ∀ l ∈ List.splitOnP.go p xs acc, ∀ x ∈ l, p x = false := by
  induction xs generalizing acc with
  | nil =>
    intro l hl x hx
    simp only [List.splitOnP.go, List.mem_singleton] at hl
    subst hl
    exact hacc x (List.mem_reverse.mp hx)
  | cons a t ih =>
    intro l hl x hx
    simp only [List.splitOnP.go] at hl
    split_ifs at hl with hpa
    · rcases List.mem_cons.mp hl with rfl | hl'
      · exact hacc x (List.mem_reverse.mp hx)
      · exact ih [] (by simp) l hl' x hx
    · refine ih (a :: acc) ?_ l hl x hx
      intro y hy
      rcases List.mem_cons.mp hy with rfl | hy'
      · simpa using hpa
      · exact hacc y hy'

theorem Split_no_sep (s : String) (sep : Char) :
    ∀ seg ∈ Split s sep, sep ∉ seg.data := by
  intro seg hseg hmem
  obtain ⟨l, hl, rfl⟩ := List.mem_map.mp hseg
  have := splitOnP_go_no_sep (fun x => x == sep) s.data [] (by simp) l hl sep hmem
  simp at this

theorem Split_join (s : String) (sep : Char) :
    [sep].intercalate ((Split s sep).map String.data) = s.data := by
  unfold Split
  rw [List.map_map]
  have : (String.data ∘ String.mk) = id := by
    funext l
    rfl
  rw [this, List.map_id]
  exact List.intercalate_splitOn s.data sep

theorem Split_single (s : String) (sep : Char) (h : sep ∉ s.data) : Split s sep = [s] := by
  unfold Split List.splitOn
  rw [List.splitOnP_eq_single]
  · rfl
  · intro x hx hxs
    have : x = sep := by simpa using hxs
    exact h (this ▸ hx)

theorem match_name_single (c : Constants) (r : ClusterRole) (v : String) :
    clusterRoleSearcher.match c [(Name, v)] r = HasString (Split v '|') r.Name := by
  have h1 : ¬ (Name = ownerKind ∨ Name = ownerName) := by decide
  simp only [clusterRoleSearcher.match, clusterRoleSearcher.matchLoop, if_neg h1, if_true]
  cases HasString (Split v '|') r.Name <;> rfl

/-- C11: the one-entry match map under the key name accepts the role iff its
name is one of the segments of the value split at the bar.  The segments are
what splitting means: none holds a bar and joined by bars they give the value
back.  A value without a bar is its own single segment, and then the role is
accepted iff its name equals the value. -/
theorem match_name_iff (c : Constants) (r : ClusterRole) (v : String) :
    (clusterRoleSearcher.match c [(Name, v)] r = true ↔ r.Name ∈ Split v '|') ∧
    (∀ seg ∈ Split v '|', '|' ∉ seg.data) ∧
    ['|'].intercalate ((Split v '|').map String.data) = v.data ∧
    ('|' ∉ v.data →
      (clusterRoleSearcher.match c [(Name, v)] r = true ↔ r.Name = v)) := by
  rw [match_name_single, HasString_iff]
  refine ⟨Iff.rfl, Split_no_sep v '|', Split_join v '|', ?_⟩
  intro h
  rw [Split_single v '|' h, List.mem_singleton]

theorem match_keyword_single (c : Constants) (r : ClusterRole) (v : String) :
    clusterRoleSearcher.match c [(Keyword, v)] r =
      (Contains r.Name v || searchFuzzy r.Labels "" v || searchFuzzy r.Annotations "" v) := by
  have h1 : ¬ (Keyword = ownerKind ∨ Keyword = ownerName) := by decide
  have h2 : Keyword ≠ Name := by decide
  simp only [clusterRoleSearcher.match, clusterRoleSearcher.matchLoop, if_neg h1, if_neg h2,
    if_true]
  cases Contains r.Name v <;> cases searchFuzzy r.Labels "" v <;>
    cases searchFuzzy r.Annotations "" v <;> rfl

/-- C12: the one-entry match map under the key keyword accepts the role iff
its name contains the value, or some label key or label value contains it, or
some annotation key or annotation value contains it. -/
theorem match_keyword_iff (c : Constants) (r : ClusterRole) (v : String) :
    clusterRoleSearcher.match c [(Keyword, v)] r = true ↔
      v.data <:+: r.Name.data ∨
      (∃ e ∈ r.Labels, v.data <:+: e.1.data ∨ v.data <:+: e.2.data) ∨
      ∃ e ∈ r.Annotations, v.data <:+: e.1.data ∨ v.data <:+: e.2.data := by
  rw [match_keyword_single, Bool.or_eq_true, Bool.or_eq_true, searchFuzzy_empty_key_iff,
    searchFuzzy_empty_key_iff, or_assoc]
  simp only [Contains_iff]

theorem isUserFacingClusterRole_iff (c : Constants) (r : ClusterRole) :
    isUserFacingClusterRole c r = true ↔
      (∃ creator, r.Annotations.lookup c.CreatorLabelAnnotationKey = some creator ∧
        creator ≠ "") ∧
      (r.Labels.lookup c.WorkspaceLabelKey = none ∨
        r.Labels.lookup c.WorkspaceLabelKey = some "") := by
  unfold isUserFacingClusterRole mapIndex
  cases r.Annotations.lookup c.CreatorLabelAnnotationKey <;>
    cases r.Labels.lookup c.WorkspaceLabelKey <;> simp

theorem match_userfacing_single (c : Constants) (r : ClusterRole) (v : String) :
    clusterRoleSearcher.match c [("userfacing", v)] r =
      (decide (v ≠ "true") || isUserFacingClusterRole c r) := by
  have h1 : ¬ ("userfacing" = ownerKind ∨ "userfacing" = ownerName) := by decide
  have h2 : "userfacing" ≠ Name := by decide
  have h3 : "userfacing" ≠ Keyword := by decide
  simp only [clusterRoleSearcher.match, clusterRoleSearcher.matchLoop, if_neg h1, if_neg h2,
    if_neg h3, if_true]
  by_cases hv : v = "true"
  · simp only [hv, if_true]
    cases isUserFacingClusterRole c r <;> rfl
  · simp [hv]

/-- C13: the one-entry match map under the key userfacing accepts the role iff
the value is not the literal true or the role is user-facing, and a role is
user-facing iff its creator annotation is present and non-empty and its
workspace label is absent or empty.  So any other value accepts every role,
whatever label the role may carry under the name userfacing. -/
theorem match_userfacing_iff (c : Constants) (r : ClusterRole) (v : String) :
    (clusterRoleSearcher.match c [("userfacing", v)] r = true ↔
      v ≠ "true" ∨ isUserFacingClusterRole c r = true) ∧
    (isUserFacingClusterRole c r = true ↔
      (∃ creator, r.Annotations.lookup c.CreatorLabelAnnotationKey = some creator ∧
        creator ≠ "") ∧
      (r.Labels.lookup c.WorkspaceLabelKey = none ∨
        r.Labels.lookup c.WorkspaceLabelKey = some "")) ∧
    (v ≠ "true" → ∀ r', clusterRoleSearcher.match c [("userfacing", v)] r' = true) := by
  refine ⟨?_, isUserFacingClusterRole_iff c r, ?_⟩
  · rw [match_userfacing_single, Bool.or_eq_true, decide_eq_true_eq]
  · intro hv r'
    rw [match_userfacing_single]
    simp [hv]

theorem match_label_single (c : Constants) (r : ClusterRole) (k v : String)
    (h1 : k ≠ ownerKind) (h2 : k ≠ ownerName) (h3 : k ≠ Name) (h4 : k ≠ Keyword)
    (h5 : k ≠ "userfacing") :
    clusterRoleSearcher.match c [(k, v)] r = decide (mapIndex r.Labels k = v) := by
  have h0 : ¬ (k = ownerKind ∨ k = ownerName) := not_or.mpr ⟨h1, h2⟩
  simp only [clusterRoleSearcher.match, clusterRoleSearcher.matchLoop, if_neg h0, if_neg h3,
    if_neg h4, if_neg h5]
  by_cases h : mapIndex r.Labels k = v <;> simp [h]

/-- C14: under a key k that is none of owner_kind, owner_name, name, keyword
and userfacing, the one-entry match map accepts the role iff its label under k,
read as the empty string when absent, equals the value.  A non-empty value
rejects a role without label k, and the empty value accepts exactly the roles
whose label k is absent or empty. -/
theorem match_label_iff (c : Constants) (r : ClusterRole) (k v : String)
    (h1 : k ≠ ownerKind) (h2 : k ≠ ownerName) (h3 : k ≠ Name) (h4 : k ≠ Keyword)
    (h5 : k ≠ "userfacing") :
    (clusterRoleSearcher.match c [(k, v)] r = true ↔ (r.Labels.lookup k).getD "" = v) ∧
    (v ≠ "" → r.Labels.lookup k = none →
      clusterRoleSearcher.match c [(k, v)] r = false) ∧
    (clusterRoleSearcher.match c [(k, "")] r = true ↔
      r.Labels.lookup k = none ∨ r.Labels.lookup k = some "") := by
  rw [match_label_single c r k v h1 h2 h3 h4 h5, match_label_single c r k "" h1 h2 h3 h4 h5]
  unfold mapIndex
  refine ⟨by simp, ?_, ?_⟩
  · intro hv hnone
    rw [hnone]
    simpa using fun h => hv h.symm
  · cases r.Labels.lookup k <;> simp

/-- Witness for C14: the seed query on the label tier against the seed role
editor. -/
theorem match_label_iff_witness :
    ("tier" ≠ ownerKind ∧ "tier" ≠ ownerName ∧ "tier" ≠ Name ∧ "tier" ≠ Keyword ∧
      "tier" ≠ "userfacing") ∧
    (clusterRoleSearcher.match seedConstants [("tier", "user")] seedEditor = true ↔
      (seedEditor.Labels.lookup "tier").getD "" = "user") :=
  ⟨by decide,
    (match_label_iff seedConstants seedEditor "tier" "user" (by decide) (by decide)
      (by decide) (by decide) (by decide)).1⟩

theorem fuzzy_name_single (c : Constants) (r : ClusterRole) (v : String) :
    clusterRoleSearcher.fuzzy c [(Name, v)] r =
      (Contains r.Name v ||
        Contains (mapIndex r.Annotations c.DisplayNameAnnotationKey) v) := by
  simp only [clusterRoleSearcher.fuzzy, if_true]
  cases Contains r.Name v <;>
    cases Contains (mapIndex r.Annotations c.DisplayNameAnnotationKey) v <;> rfl

/-- C15: the one-entry fuzzy map under the key name accepts the role iff its
name contains the value or its display-name annotation, read as the empty
string when absent, contains the value. -/
theorem fuzzy_name_iff (c : Constants) (r : ClusterRole) (v : String) :
    clusterRoleSearcher.fuzzy c [(Name, v)] r = true ↔
      v.data <:+: r.Name.data ∨
      v.data <:+: ((r.Annotations.lookup c.DisplayNameAnnotationKey).getD "").data := by
  rw [fuzzy_name_single, Bool.or_eq_true, Contains_iff, Contains_iff]
  rfl

/-! ## C16: the comparator -/

theorem stringsCompare_le_iff (a b : String) : stringsCompare a b ≤ 0 ↔ a ≤ b := by
  have h : stringsCompare a b ≤ 0 ↔ ¬ stringsCompare b a < 0 := by
    rw [stringsCompare_swap a b]
    omega
  rw [h, stringsCompare_neg_iff]
  exact not_lt

/-- C16: under order_by create_time the comparator holds iff the first role
was created strictly earlier than the second; under name and under every other
order_by value it holds iff the name of the first role is smaller than or equal
to the name of the second in the lexicographic order of strings. -/
theorem compare_iff (a b : ClusterRole) (orderBy : String) :
    (orderBy = CreateTime →
      (clusterRoleSearcher.compare a b orderBy = true ↔
        a.CreationTimestamp < b.CreationTimestamp)) ∧
    (orderBy ≠ CreateTime →
      (clusterRoleSearcher.compare a b orderBy = true ↔ a.Name ≤ b.Name)) ∧
    (clusterRoleSearcher.compare a b Name = true ↔ a.Name ≤ b.Name) := by
  have hother : ∀ ob, ob ≠ CreateTime →
      (clusterRoleSearcher.compare a b ob = true ↔ a.Name ≤ b.Name) := by
    intro ob hob
    simp only [clusterRoleSearcher.compare, if_neg hob, decide_eq_true_eq]
    exact stringsCompare_le_iff a.Name b.Name
  refine ⟨?_, hother orderBy, hother Name (by decide)⟩
  intro hob
  simp [clusterRoleSearcher.compare, hob]

/-! ## C17: failure of search -/

theorem foldl_append_singleton {α : Type} (l acc : List α) :
    l.foldl (fun r i => r ++ [i]) acc = acc ++ l := by
  induction l generalizing acc with
  | nil => simp
  | cons x rest ih => rw [List.foldl_cons, ih, List.append_assoc, List.singleton_append]

theorem searchValues_ok
    (sortSlice : (ClusterRole → ClusterRole → Bool) → List ClusterRole → List ClusterRole)
    (c : Constants) (S : List ClusterRole) (q : Conditions) (orderBy : String)
    (reverse : Bool) :
    clusterRoleSearcher.searchValues sortSlice c (.ok S) q orderBy reverse =
      (some (sortSlice (clusterRoleSearcher.less orderBy reverse)
        (clusterRoleSearcher.retained c q S)), none) := by
  simp only [clusterRoleSearcher.searchValues, foldl_append_singleton, List.nil_append]

/-- C17: search fails iff the lister fails, and then with the error of the
lister and without a result: Go gets a nil slice and that error.  When the
lister succeeds search succeeds for every query: Go gets a slice that is not
nil and a nil error.  When no role of the snapshot is accepted by both
evaluators the result is the empty sequence, not nil and not an error. -/
theorem search_error_iff
    (sortSlice : (ClusterRole → ClusterRole → Bool) → List ClusterRole → List ClusterRole)
    (hs : SortSliceContract sortSlice) (c : Constants)
    (lister : Except String (List ClusterRole)) (q : Conditions) (orderBy : String)
    (reverse : Bool) :
    (∀ err, clusterRoleSearcher.search sortSlice c lister q orderBy reverse = .error err ↔
      lister = .error err) ∧
    (∀ err, lister = .error err →
      clusterRoleSearcher.searchValues sortSlice c lister q orderBy reverse =
        (none, some err)) ∧
    (∀ S, lister = .ok S →
      ∃ out, clusterRoleSearcher.search sortSlice c lister q orderBy reverse = .ok out ∧
        clusterRoleSearcher.searchValues sortSlice c lister q orderBy reverse =
          (some out, none)) ∧
    (∀ S, lister = .ok S →
      (∀ r ∈ S, ¬ (clusterRoleSearcher.match c q.Match r = true ∧
        clusterRoleSearcher.fuzzy c q.Fuzzy r = true)) →
      clusterRoleSearcher.search sortSlice c lister q orderBy reverse = .ok [] ∧
        clusterRoleSearcher.searchValues sortSlice c lister q orderBy reverse =
          (some [], none)) := by
  refine ⟨?_, ?_, ?_, ?_⟩
  · intro err
    cases lister with
    | error e => simp [clusterRoleSearcher.search]
    | ok S => simp [clusterRoleSearcher.search]
  · intro err herr
    subst herr
    rfl
  · intro S hS
    subst hS
    exact ⟨_, search_ok sortSlice c S q orderBy reverse,
      searchValues_ok sortSlice c S q orderBy reverse⟩
  · intro S hS hnone
    subst hS
    have hret : clusterRoleSearcher.retained c q S = [] := by
      rw [retained_eq_filter, List.filter_eq_nil_iff]
      intro r hr
      simpa using hnone r hr
    have hnil : sortSlice (clusterRoleSearcher.less orderBy reverse) [] = [] :=
      List.perm_nil.mp (hs.1 _ [])
    rw [search_ok, searchValues_ok, hret, hnil]
    exact ⟨rfl, rfl⟩

/-- Witness for C17: a lister that fails with the error cache down. -/
theorem search_error_iff_witness :
    SortSliceContract insertionSort ∧
    (∀ err, clusterRoleSearcher.search insertionSort seedConstants (.error "cache down")
        ⟨[], []⟩ Name false = .error err ↔
      (Except.error "cache down" : Except String (List ClusterRole)) = .error err) :=
  ⟨insertionSort_contract,
    (search_error_iff insertionSort insertionSort_contract seedConstants
      (.error "cache down") ⟨[], []⟩ Name false).1⟩

/-! ## C18: case sensitivity -/

theorem not_infix_of_upper {v s : List Char} (hv : ∃ ch ∈ v, ch.isUpper = true)
    (hs : ∀ ch ∈ s, ch.isUpper = false) : ¬ v <:+: s := by
  intro hinf
  obtain ⟨ch, hch, hup⟩ := hv
  rw [hs ch (hinf.subset hch)] at hup
  exact Bool.noConfusion hup

theorem Contains_false_of_upper {s v : String} (hv : ∃ ch ∈ v.data, ch.isUpper = true)
    (hs : ∀ ch ∈ s.data, ch.isUpper = false) : Contains s v = false := by
  rw [← Bool.not_eq_true, Contains_iff]
  exact not_infix_of_upper hv hs

theorem searchFuzzy_false_of_upper {m : List (String × String)} {v : String}
    (hv : ∃ ch ∈ v.data, ch.isUpper = true)
    (hm : ∀ e ∈ m, (∀ ch ∈ e.1.data, ch.isUpper = false) ∧
      ∀ ch ∈ e.2.data, ch.isUpper = false) :
    searchFuzzy m "" v = false := by
  rw [← Bool.not_eq_true, searchFuzzy_empty_key_iff]
  rintro ⟨e, he, h | h⟩
  · rw [Contains_false_of_upper hv (hm e he).1] at h
    exact Bool.noConfusion h
  · rw [Contains_false_of_upper hv (hm e he).2] at h
    exact Bool.noConfusion h

/-- C18: when the name of the role and its display-name annotation hold no
upper-case ASCII letter and the needle holds at least one, the fuzzy map under
the key name rejects the role; when moreover no label or annotation key or
value of the role holds an upper-case letter, the match map under the key
keyword rejects it too. -/
theorem case_sensitive (c : Constants) (r : ClusterRole) (v : String)
    (hv : ∃ ch ∈ v.data, ch.isUpper = true)
    (hname : ∀ ch ∈ r.Name.data, ch.isUpper = false)
    (hdisplay : ∀ ch ∈ (mapIndex r.Annotations c.DisplayNameAnnotationKey).data,
      ch.isUpper = false) :
    clusterRoleSearcher.fuzzy c [(Name, v)] r = false ∧
    ((∀ e ∈ r.Labels, (∀ ch ∈ e.1.data, ch.isUpper = false) ∧
        ∀ ch ∈ e.2.data, ch.isUpper = false) →
      (∀ e ∈ r.Annotations, (∀ ch ∈ e.1.data, ch.isUpper = false) ∧
        ∀ ch ∈ e.2.data, ch.isUpper = false) →
      clusterRoleSearcher.match c [(Keyword, v)] r = false) := by
  constructor
  · rw [fuzzy_name_single, Contains_false_of_upper hv hname,
      Contains_false_of_upper hv hdisplay]
    rfl
  · intro hl ha
    rw [match_keyword_single, Contains_false_of_upper hv hname,
      searchFuzzy_false_of_upper hv hl, searchFuzzy_false_of_upper hv ha]
    rfl

/-- Witness for C18: the needle Edit against a role named editor whose display
name is editor as well. -/
theorem case_sensitive_witness :
    ((∃ ch ∈ "Edit".data, ch.isUpper = true) ∧
      (∀ ch ∈ "editor".data, ch.isUpper = false) ∧
      (∀ ch ∈ (mapIndex [("display_name_annotation_key", "editor")]
        seedConstants.DisplayNameAnnotationKey).data, ch.isUpper = false)) ∧
    clusterRoleSearcher.fuzzy seedConstants [(Name, "Edit")]
      { Name := "editor", CreationTimestamp := 2, Labels := [("tier", "user")],
        Annotations := [("display_name_annotation_key", "editor")],
        OwnerReferences := [] } = false :=
  ⟨⟨by decide, by decide, by decide⟩,
    (case_sensitive seedConstants
      { Name := "editor", CreationTimestamp := 2, Labels := [("tier", "user")],
        Annotations := [("display_name_annotation_key", "editor")],
        OwnerReferences := [] } "Edit" (by decide) (by decide) (by decide)).1⟩

/-! ## C19: the fuzzy key annotation -/

theorem fuzzy_annotation_single (c : Constants) (r : ClusterRole) (v : String) :
    clusterRoleSearcher.fuzzy c [( annotation, v)] r = false := by
  have h1 : annotation ≠ Name := by decide
  have h2 : annotation ≠ label := by decide
  simp only [clusterRoleSearcher.fuzzy, if_neg h1, if_neg h2, if_true]
  cases searchFuzzy r.Annotations "" v <;> rfl

theorem fuzzy_false_of_annotationKey (c : Constants) (r : ClusterRole)
    (f : List (String × String)) (hf : ∃ v, ( annotation, v) ∈ f) :
    clusterRoleSearcher.fuzzy c f r = false := by
  obtain ⟨v, hv⟩ := hf
  rw [fuzzy_eq_all, List.all_eq_false]
  exact ⟨_, hv, by rw [fuzzy_annotation_single]; simp⟩

/-- C19: a fuzzy map that holds the key annotation, with any value and next to
any other entries, rejects every role, so search with such a fuzzy map returns
the empty sequence on every snapshot. -/
theorem fuzzy_annotation_always_rejects (c : Constants) (f : List (String × String))
    (hf : ∃ v, ( annotation, v) ∈ f) :
    (∀ r, clusterRoleSearcher.fuzzy c f r = false) ∧
    ∀ sortSlice, SortSliceContract sortSlice →
      ∀ (S : List ClusterRole) (m : List (String × String)) (orderBy : String)
        (reverse : Bool),
        clusterRoleSearcher.search sortSlice c (.ok S) ⟨m, f⟩ orderBy reverse = .ok [] := by
  refine ⟨fun r => fuzzy_false_of_annotationKey c r f hf, ?_⟩
  intro sortSlice hs S m orderBy reverse
  have hret : clusterRoleSearcher.retained c ⟨m, f⟩ S = [] := by
    rw [retained_eq_filter, List.filter_eq_nil_iff]
    intro r _
    simp [fuzzy_false_of_annotationKey c r f hf]
  rw [search_ok, hret]
  exact congrArg _ (List.perm_nil.mp (hs.1 _ []))

/-- Witness for C19: the fuzzy map that asks for the needle Admin among the
annotations, on the seed snapshot. -/
theorem fuzzy_annotation_always_rejects_witness :
    (∃ v, ( annotation, v) ∈ [( annotation, "Admin")]) ∧
    ∀ r, clusterRoleSearcher.fuzzy seedConstants [( annotation, "Admin")] r = false :=
  ⟨⟨"Admin", List.mem_cons_self _ _⟩,
    (fuzzy_annotation_always_rejects seedConstants [( annotation, "Admin")]
      ⟨"Admin", List.mem_cons_self _ _⟩).1⟩

/-! ## C20: ordering by creation time -/

theorem sameKey_createTime_of_ne {a b : ClusterRole}
    (h : a.CreationTimestamp ≠ b.CreationTimestamp) : sameKey CreateTime a b = false := by
  simp [sameKey, h]

theorem keyBefore_createTime (a b : ClusterRole) :
    keyBefore CreateTime a b = decide (a.CreationTimestamp < b.CreationTimestamp) := by
  simp [keyBefore]

/-- C20: when the retained roles have pairwise distinct creation times, search
under order_by create_time returns them in strictly descending order of
creation time with reverse set and in strictly ascending order with reverse
unset; on the seed snapshot with the empty query and reverse set that is
system:bot, editor, viewer, admin. -/
theorem createTime_strict_order
    (sortSlice : (ClusterRole → ClusterRole → Bool) → List ClusterRole → List ClusterRole)
    (hs : SortSliceContract sortSlice) (c : Constants) (S : List ClusterRole)
    (q : Conditions)
    (hkeys : (clusterRoleSearcher.retained c q S).Pairwise
      fun a b => a.CreationTimestamp ≠ b.CreationTimestamp) :
    (∃ out, clusterRoleSearcher.search sortSlice c (.ok S) q CreateTime true = .ok out ∧
      out.Perm (clusterRoleSearcher.retained c q S) ∧
      out.Pairwise fun a b => b.CreationTimestamp < a.CreationTimestamp) ∧
    (∃ out, clusterRoleSearcher.search sortSlice c (.ok S) q CreateTime false = .ok out ∧
      out.Perm (clusterRoleSearcher.retained c q S) ∧
      out.Pairwise fun a b => a.CreationTimestamp < b.CreationTimestamp) ∧
    (S = seedSnapshot → q = ⟨[], []⟩ →
      clusterRoleSearcher.search sortSlice c (.ok S) q CreateTime true =
        .ok [seedBot, seedEditor, seedViewer, seedAdmin]) := by
  obtain ⟨hup, hdown⟩ := sortSlice_strict hs CreateTime _
    (hkeys.imp sameKey_createTime_of_ne)
  have hdown' : (sortSlice (clusterRoleSearcher.less CreateTime true)
      (clusterRoleSearcher.retained c q S)).Pairwise
      fun a b => b.CreationTimestamp < a.CreationTimestamp :=
    hdown.imp fun {a b} h => by
      rw [keyBefore_createTime] at h
      exact of_decide_eq_true h
  have hup' : (sortSlice (clusterRoleSearcher.less CreateTime false)
      (clusterRoleSearcher.retained c q S)).Pairwise
      fun a b => a.CreationTimestamp < b.CreationTimestamp :=
    hup.imp fun {a b} h => by
      rw [keyBefore_createTime] at h
      exact of_decide_eq_true h
  refine ⟨⟨_, search_ok sortSlice c S q CreateTime true, hs.1 _ _, hdown'⟩,
    ⟨_, search_ok sortSlice c S q CreateTime false, hs.1 _ _, hup'⟩, ?_⟩
  intro hS hq
  subst hS hq
  have hret : clusterRoleSearcher.retained c ⟨[], []⟩ seedSnapshot = seedSnapshot := rfl
  rw [hret] at hdown
  have hperm : (sortSlice (clusterRoleSearcher.less CreateTime true) seedSnapshot).reverse.Perm
      seedSnapshot := (List.reverse_perm _).trans (hs.1 _ _)
  have heq := eq_of_perm_of_keyBefore CreateTime hperm (List.pairwise_reverse.mpr hdown)
    (by decide)
  rw [search_ok, hret, ← List.reverse_reverse (sortSlice _ seedSnapshot), heq]
  rfl

/-- Witness for C20: the seed snapshot under the empty query, sorted by
insertion sort. -/
theorem createTime_strict_order_witness :
    (SortSliceContract insertionSort ∧
      (clusterRoleSearcher.retained seedConstants ⟨[], []⟩ seedSnapshot).Pairwise
        fun a b => a.CreationTimestamp ≠ b.CreationTimestamp) ∧
    (seedSnapshot = seedSnapshot → (⟨[], []⟩ : Conditions) = ⟨[], []⟩ →
      clusterRoleSearcher.search insertionSort seedConstants (.ok seedSnapshot) ⟨[], []⟩
          CreateTime true =
        .ok [seedBot, seedEditor, seedViewer, seedAdmin]) :=
  ⟨⟨insertionSort_contract, by decide⟩,
    (createTime_strict_order insertionSort insertionSort_contract seedConstants seedSnapshot
      ⟨[], []⟩ (by decide)).2.2⟩

end Resources
